import Mathlib

/-!
Verification of the attribute-attachment engine of `remark-attributes`
(`src/lib/index.js`), as a shallow embedding.

Trees are `mdast` nodes.  A node is modelled by one constructor carrying the
fields the transform reads or writes:

  * `typ`        : the `type` discriminator string;
  * `children`   : `none` when the JS object has no `children` key at all
                   (the `'children' in node` test), `some l` otherwise;
  * `position`   : source position, each coordinate optional, matching the
                   `node.position?.end?.offset` optional chains;
  * `dat`        : the `data` object, holding the two fields the transform
                   uses, `hProperties` and `mdastAttributes`;
  * `value`      : text content (`Text.value`, and the original source text of
                   an `mdastAttributes` fragment);
  * `attributes` : the parsed key/value map of an `mdastAttributes` fragment,
                   an insertion-ordered association list;
  * `lang`       : `Code.lang`;
  * `spread`     : `List.spread` coerced to a boolean (JS truthiness).

JS `Record<string, v>` objects are insertion-ordered association lists;
property assignment keeps the position of an existing key and appends a new
one.  An `hProperties` value is a string or an array of strings
(`className`), modelled by `PropVal`.
-/

structure Point where
  line : Option Int
  offset : Option Int
deriving DecidableEq, Repr

/-- Source position; `stop` models the JS `end` field (a Lean keyword). -/
structure Pos where
  start : Point
  stop : Point
deriving DecidableEq, Repr

inductive PropVal where
  | str : String → PropVal
  | arr : List String → PropVal
deriving DecidableEq, Repr

/-- An `mdastAttributes` fragment's parsed map: `Record<string, string>`. -/
abbrev Attrs := List (String × String)

/-- An `hProperties` bag: `Record<string, string | string[]>`. -/
abbrev Bag := List (String × PropVal)

/-- The `data` object of a node, restricted to the two fields the transform
reads and writes. -/
structure NodeData where
  hProperties : Option Bag
  mdastAttributes : Option Attrs
deriving DecidableEq, Repr

inductive Node where
  | mk (typ : String) (children : Option (List Node)) (position : Option Pos)
       (dat : Option NodeData) (value : String) (attributes : Attrs)
       (lang : Option String) (spread : Bool)

mutual

def nodeDecEq : (a b : Node) → Decidable (a = b)
  | .mk t1 c1 p1 d1 v1 a1 l1 s1, .mk t2 c2 p2 d2 v2 a2 l2 s2 =>
    match optListNodeDecEq c1 c2 with
    | isTrue hc =>
      if h : t1 = t2 ∧ p1 = p2 ∧ d1 = d2 ∧ v1 = v2 ∧ a1 = a2 ∧ l1 = l2 ∧ s1 = s2 then
        isTrue (by obtain ⟨h1, h2, h3, h4, h5, h6, h7⟩ := h; rw [h1, hc, h2, h3, h4, h5, h6, h7])
      else isFalse (by intro hh; injection hh; apply h; refine ⟨?_, ?_, ?_, ?_, ?_, ?_, ?_⟩ <;> assumption)
    | isFalse hc => isFalse (by intro hh; injection hh; exact hc (by assumption))

def listNodeDecEq : (a b : List Node) → Decidable (a = b)
  | [], [] => isTrue rfl
  | [], _ :: _ => isFalse (by intro h; exact List.noConfusion h)
  | _ :: _, [] => isFalse (by intro h; exact List.noConfusion h)
  | x :: xs, y :: ys =>
    match nodeDecEq x y, listNodeDecEq xs ys with
    | isTrue h1, isTrue h2 => isTrue (by rw [h1, h2])
    | isFalse h1, _ => isFalse (by intro h; injection h; exact h1 (by assumption))
    | isTrue _, isFalse h2 => isFalse (by intro h; injection h; exact h2 (by assumption))

def optListNodeDecEq : (a b : Option (List Node)) → Decidable (a = b)
  | none, none => isTrue rfl
  | none, some _ => isFalse (by intro h; exact Option.noConfusion h)
  | some _, none => isFalse (by intro h; exact Option.noConfusion h)
  | some a, some b =>
    match listNodeDecEq a b with
    | isTrue h => isTrue (by rw [h])
    | isFalse h => isFalse (by intro hh; injection hh; exact h (by assumption))

end

instance : DecidableEq Node := nodeDecEq

def Node.typ : Node → String
  | .mk t _ _ _ _ _ _ _ => t

def Node.children : Node → Option (List Node)
  | .mk _ c _ _ _ _ _ _ => c

def Node.position : Node → Option Pos
  | .mk _ _ p _ _ _ _ _ => p

def Node.dat : Node → Option NodeData
  | .mk _ _ _ d _ _ _ _ => d

def Node.value : Node → String
  | .mk _ _ _ _ v _ _ _ => v

def Node.attributes : Node → Attrs
  | .mk _ _ _ _ _ a _ _ => a

def Node.lang : Node → Option String
  | .mk _ _ _ _ _ _ l _ => l

def Node.spread : Node → Bool
  | .mk _ _ _ _ _ _ _ s => s

def Node.setDat : Node → Option NodeData → Node
  | .mk t c p _ v a l s, d => .mk t c p d v a l s

def Node.setChildren : Node → Option (List Node) → Node
  | .mk t _ p d v a l s, c => .mk t c p d v a l s

@[simp] theorem Node.typ_mk (t c p d v a l s) : (Node.mk t c p d v a l s).typ = t := rfl

@[simp] theorem Node.children_mk (t c p d v a l s) : (Node.mk t c p d v a l s).children = c := rfl

@[simp] theorem Node.position_mk (t c p d v a l s) : (Node.mk t c p d v a l s).position = p := rfl

@[simp] theorem Node.dat_mk (t c p d v a l s) : (Node.mk t c p d v a l s).dat = d := rfl

@[simp] theorem Node.value_mk (t c p d v a l s) : (Node.mk t c p d v a l s).value = v := rfl

@[simp] theorem Node.attributes_mk (t c p d v a l s) : (Node.mk t c p d v a l s).attributes = a := rfl

@[simp] theorem Node.lang_mk (t c p d v a l s) : (Node.mk t c p d v a l s).lang = l := rfl

@[simp] theorem Node.spread_mk (t c p d v a l s) : (Node.mk t c p d v a l s).spread = s := rfl

@[simp] theorem Node.setDat_mk (t c p d v a l s d2) : (Node.mk t c p d v a l s).setDat d2 = Node.mk t c p d2 v a l s := rfl

@[simp] theorem Node.setChildren_mk (t c p d v a l s c2) : (Node.mk t c p d v a l s).setChildren c2 = Node.mk t c2 p d v a l s := rfl

/-- JS object property read: `target[key]`. -/
def getProp (b : Bag) (k : String) : Option PropVal :=
  (b.find? (fun kv => kv.1 == k)).map (fun kv => kv.2)

/-- JS object property write: `target[key] = v`.  An existing key keeps its
position in the bag; a new key is appended. -/
def setProp (b : Bag) (k : String) (v : PropVal) : Bag :=
  if b.any (fun kv => kv.1 == k) then
    b.map (fun kv => if kv.1 == k then (k, v) else kv)
  else b ++ [(k, v)]

/-- JS `Array.isArray(target.className) ? target.className : []`. -/
def classNameArr (b : Bag) : List String :=
  match getProp b "className" with
  | some (.arr l) => l
  | _ => []

/-- View a fragment's string-valued attribute map as a bag, the way
`Object.entries` yields it to `mergeAttributes`. -/
def attrsToProps (a : Attrs) : Bag :=
  a.map (fun kv => (kv.1, PropVal.str kv.2))

/-- The `language-(lang)` injection inside the `class` branch of
`mergeAttributes` (src/lib/index.js lines 458-463): fires when the owning
node was passed and is a `code` node with a truthy `lang`. -/
def classInject (existing : List String) (node : Option (String × Option String)) : List String :=
  match node with
  | some (t, some lg) =>
    if t == "code" && lg != "" then
      let langClass := "language-" ++ lg
      if existing.contains langClass then existing else existing ++ [langClass]
    else existing
  | _ => existing

/-- JS `value.split(' ')` over the character list: split on the single space
character, keeping empty pieces (so `"".split(' ')` is `[""]`). -/
def splitCharsOnSpace : List Char → List (List Char)
  | [] => [[]]
  | c :: rest =>
    let r := splitCharsOnSpace rest
    if c = ' ' then [] :: r
    else
      match r with
      | h :: t => (c :: h) :: t
      | [] => [[c]]

def splitOnSpace (s : String) : List String :=
  (splitCharsOnSpace s.data).map (fun l => String.mk l)

/-- The token loop of the `class` branch (lines 465-469):
`for (const cls of value.split(' ')) if (cls && !existing.includes(cls)) existing.push(cls)`. -/
def classTokensFold (existing : List String) (s : String) : List String :=
  (splitOnSpace s).foldl
    (fun ex cls => if cls != "" && !ex.contains cls then ex ++ [cls] else ex) existing

/-- `mergeAttributes(target, source, node)` (src/lib/index.js lines 448-475).
`node` is the pair of the owning node's `type` and `lang` when passed.
The `source` is typed `Record<string, string>` in the JS, but
`promoteTightListAttributes` passes a whole `hProperties` bag whose values
may be arrays, so the source here is a `Bag`.  In the `class` branch an
array value would make the JS throw (`value.split` is not a function); that
case is unreachable in the pipeline, because a bag never stores the key
`class` (the branch always writes `className`), and is modelled as a no-op
on the token list. -/
def mergeAttributes (target : Bag) (source : Bag) (node : Option (String × Option String)) : Bag :=
  source.foldl
    (fun tgt kv =>
      if kv.1 == "class" then
        let existing := classNameArr tgt
        let existing := classInject existing node
        let existing :=
          match kv.2 with
          | .str s => classTokensFold existing s
          | .arr _ => existing
        setProp tgt "className" (.arr existing)
      else setProp tgt kv.1 kv.2)
    target

/-- Effect of `mergeAttributesToNode` on the `data` field:
`node.data = node.data || {}; node.data.hProperties = node.data.hProperties || {};
mergeAttributes(node.data.hProperties, attributes, node)`. -/
def mergeAttrsData (pd : Option NodeData) (typ : String) (lang : Option String) (source : Bag) : Option NodeData :=
  let d := pd.getD ⟨none, none⟩
  let hp := d.hProperties.getD []
  some { d with hProperties := some (mergeAttributes hp source (some (typ, lang))) }

/-- `mergeAttributesToNode(node, attributes)` (src/lib/index.js lines 434-440). -/
def mergeAttributesToNode (node : Node) (attributes : Bag) : Node :=
  node.setDat (mergeAttrsData node.dat node.typ node.lang attributes)

/-- `INLINE_TYPES` (src/lib/index.js line 18). -/
def INLINE_TYPES : List String := ["emphasis", "strong", "link", "image", "inlineCode"]

def isInline (t : String) : Bool := INLINE_TYPES.contains t

/-- `getPositionGap(before, after)` (src/lib/index.js lines 410-419):
character gap between two nodes, `-1` when either offset is unavailable. -/
def getPositionGap (before after : Node) : Int :=
  let beforeEnd := before.position.bind (fun p => p.stop.offset)
  let afterStart := after.position.bind (fun p => p.start.offset)
  match beforeEnd, afterStart with
  | some b, some a => a - b
  | _, _ => -1

/-- `areDirectlyAdjacent(first, second)` (src/lib/index.js lines 244-254):
the second node starts exactly one line after the first ends; `false` when
either line is unavailable. -/
def areDirectlyAdjacent (first second : Node) : Bool :=
  let firstEnd := first.position.bind (fun p => p.stop.line)
  let secondStart := second.position.bind (fun p => p.start.line)
  match firstEnd, secondStart with
  | some fe, some ss => ss - fe == 1
  | _, _ => false

/-- `getStandaloneAttributesFromParagraph(node)` (src/lib/index.js lines 220-227):
the single `mdastAttributes` child of a paragraph that contains nothing else. -/
def getStandaloneAttributesFromParagraph (node : Node) : Option Node :=
  if node.typ != "paragraph" then none
  else
    match node.children with
    | some [child] => if child.typ == "mdastAttributes" then some child else none
    | _ => none

/-- The Rule 3 replacement text node (src/lib/index.js lines 203-210): type
`text`, the fragment's original source text as value, and the fragment's
position when present. -/
def orphanTextNode (attrNode : Node) : Node :=
  .mk "text" none attrNode.position none attrNode.value [] none false

/-!
Termination infrastructure.  The JS passes mutate nodes in place and re-visit
nodes whose `data` was just merged into, so the recursions below are not
structural.  `msize` measures a node ignoring its `data`: merging attributes
into a node preserves it.
-/

mutual

def Node.msize : Node → Nat
  | .mk _ none _ _ _ _ _ _ => 2
  | .mk _ (some cs) _ _ _ _ _ _ => 2 + msizeList cs

def msizeList : List Node → Nat
  | [] => 0
  | c :: t => c.msize + msizeList t

end

theorem msize_pos (n : Node) : 2 ≤ n.msize := by
  cases n with
  | mk t cs p d v a l s => cases cs <;> simp [Node.msize]

theorem msizeList_append (a b : List Node) : msizeList (a ++ b) = msizeList a + msizeList b := by
  induction a with
  | nil => simp [msizeList]
  | cons x xs ih => simp [msizeList, ih]; omega

theorem msizeList_reverse (l : List Node) : msizeList l.reverse = msizeList l := by
  induction l with
  | nil => rfl
  | cons x xs ih => simp [msizeList, List.reverse_cons, msizeList_append, ih]; omega

theorem msize_setDat (n : Node) (d : Option NodeData) : (n.setDat d).msize = n.msize := by
  cases n with
  | mk t cs p d0 v a l s => cases cs <;> rfl

theorem msize_mergeAttributesToNode (n : Node) (b : Bag) :
    (mergeAttributesToNode n b).msize = n.msize := by
  simp [mergeAttributesToNode, msize_setDat]

theorem msize_mem_le (c : Node) (l : List Node) (h : c ∈ l) : c.msize ≤ msizeList l := by
  induction l with
  | nil => cases h
  | cons x xs ih =>
    rcases List.mem_cons.mp h with h1 | h2
    · subst h1
      simp [msizeList]
      try omega
    · have := ih h2
      simp [msizeList]
      omega

/-!
Pass 1: `processCodeBlocks` (src/lib/index.js lines 126-143).  Converts a
code node's out-of-band `data.mdastAttributes` into `data.hProperties` and
deletes the side channel; stops at code nodes, recurses everywhere else.
Structural recursion: no modified node is re-visited.
-/

def codeData (t : String) (lg : Option String) (d : Option NodeData) : Option NodeData :=
  match d with
  | some dd =>
    match dd.mdastAttributes with
    | some attrs =>
      some ⟨some (mergeAttributes (dd.hProperties.getD []) (attrsToProps attrs) (some (t, lg))),
        none⟩
    | none => some dd
  | none => none

mutual

def processCodeBlocks : Node → Node
  | .mk t cs pos d v a lg sp =>
    if t == "code" then
      .mk t cs pos (codeData t lg d) v a lg sp
    else
      match cs with
      | some l => .mk t (some (processCodeBlocksList l)) pos d v a lg sp
      | none => .mk t none pos d v a lg sp

def processCodeBlocksList : List Node → List Node
  | [] => []
  | c :: rest => processCodeBlocks c :: processCodeBlocksList rest

end

/-!
Pass 2: `processThematicBreakAttributes` via `processThematicBreaksInParent`
(src/lib/index.js lines 298-330).  A `thematicBreak` child carrying a
non-empty `children` array gets every `mdastAttributes` child merged into
its own `hProperties`, in child order, and the `children` field deleted;
after the deletion the JS `'children' in child` recursion guard fails, so
such a child is not recursed into.  Every other child is recursed into.
The parent node itself is only used as a container (the top-level tree is
never checked as a thematic break).
-/

mutual

def thematicBreakChild : Node → Node
  | .mk t cs pos d v a lg sp =>
    match cs with
    | some l =>
      if t == "thematicBreak" && !l.isEmpty then
        (l.foldl
          (fun acc g =>
            if g.typ == "mdastAttributes" then
              mergeAttributesToNode acc (attrsToProps g.attributes)
            else acc)
          (Node.mk t (some l) pos d v a lg sp)).setChildren none
      else
        .mk t (some (thematicBreakChildren l)) pos d v a lg sp
    | none => .mk t none pos d v a lg sp

def thematicBreakChildren : List Node → List Node
  | [] => []
  | c :: rest => thematicBreakChild c :: thematicBreakChildren rest

end

def processThematicBreaksInParent : Node → Node
  | .mk t cs pos d v a lg sp =>
    match cs with
    | some l => .mk t (some (thematicBreakChildren l)) pos d v a lg sp
    | none => .mk t none pos d v a lg sp

/-!
Pass 3: `processStandaloneAttributeParagraphs` via
`processStandaloneInParent` (src/lib/index.js lines 261-290).  The JS walks
each parent's children left to right with index `i`; on a merge it splices
out the standalone paragraph and re-examines index `i` (now holding the
merged-into next sibling).  `standaloneGo` models the walk: the merge branch
continues on `merged-next :: rest`, the other branches emit the recursed
child and continue.
-/

mutual

def processStandaloneInParent : Node → Node
  | n@(.mk t cs pos d v a lg sp) =>
    match cs with
    | none => n
    | some l => .mk t (some (standaloneGo l)) pos d v a lg sp
termination_by n => n.msize
decreasing_by
  simp [Node.msize]

def standaloneGo : List Node → List Node
  | [] => []
  | c :: rest =>
    match getStandaloneAttributesFromParagraph c, h2 : rest with
    | some frag, next :: rest2 =>
      if areDirectlyAdjacent c next then
        standaloneGo (mergeAttributesToNode next (attrsToProps frag.attributes) :: rest2)
      else
        processStandaloneInParent c :: standaloneGo rest
    | _, _ =>
      processStandaloneInParent c :: standaloneGo rest
termination_by cs => 1 + msizeList cs
decreasing_by
  all_goals (try simp only [h2])
  all_goals simp [msizeList, msize_mergeAttributesToNode]
  all_goals (try have hc := msize_pos c)
  all_goals omega

end

/-!
Pass 4: `processTrailingAttributeParagraphs` via `processTrailingInParent`
(src/lib/index.js lines 346-371).  The JS walks children from index 1 with
`prev = children[i-1]`; a standalone attribute paragraph directly after a
`thematicBreak` is merged into the break and spliced out, keeping `i` (and
hence `prev`) in place.  Children are recursed into before becoming `prev`;
the child at index 0 is never recursed into at this level (the loop starts
at 1), which `trailingGo` reflects by threading `prev` unrecursed.
-/

mutual

def processTrailingInParent : Node → Node
  | n@(.mk t cs pos d v a lg sp) =>
    match cs with
    | none => n
    | some [] => n
    | some (c0 :: rest) =>
      let r := trailingGo c0 rest
      .mk t (some (r.1 :: r.2)) pos d v a lg sp
termination_by n => n.msize
decreasing_by
  have hc := msize_pos c0
  simp [Node.msize, msizeList]
  omega

def trailingGo (prev : Node) : List Node → Node × List Node
  | [] => (prev, [])
  | c :: rest =>
    match (if prev.typ == "thematicBreak" then getStandaloneAttributesFromParagraph c else none) with
    | some frag =>
      if areDirectlyAdjacent prev c then
        trailingGo (mergeAttributesToNode prev (attrsToProps frag.attributes)) rest
      else
        let c2 := processTrailingInParent c
        let r := trailingGo c2 rest
        (prev, r.1 :: r.2)
    | none =>
      let c2 := processTrailingInParent c
      let r := trailingGo c2 rest
      (prev, r.1 :: r.2)
termination_by cs => 1 + msizeList cs
decreasing_by
  all_goals simp [msizeList]
  all_goals have hc := msize_pos c
  all_goals omega

end

/-!
Pass 5: the generic resolver `processNode` / `handleAttributeNode`
(src/lib/index.js lines 150-212).  The JS iterates each parent's children by
index from `length - 1` down to 0 over an array it splices.  `goResolve`
models the loop state: `revPre` is the not-yet-visited prefix
`children[0..i]` in reversed order (current child first), `suffix` is the
already-processed tail, `pd` the parent's evolving `data`.  The current
child array is `revPre.reverse ++ suffix` and the current index is
`revPre.length - 1`, so `index === children.length - 1` is `suffix = []`.
Rule 1 merges into the previous sibling (the head of the remaining reversed
prefix) and re-examines it next; Rule 2 merges into the parent's data and
drops the fragment; Rule 3 replaces the fragment by a text node, which is
never re-visited (the loop moves down).  Non-fragment children are recursed
into.
-/

mutual

def processNode : Node → Node
  | n@(.mk t cs pos d v a lg sp) =>
    match cs with
    | none => n
    | some l =>
      let r := goResolve t lg d l.reverse []
      .mk t (some r.2) pos r.1 v a lg sp
termination_by n => n.msize
decreasing_by
  simp [Node.msize, msizeList_reverse]

def goResolve (pt : String) (plang : Option String) (pd : Option NodeData)
    (revPre suffix : List Node) : Option NodeData × List Node :=
  match revPre with
  | [] => (pd, suffix)
  | c :: revRest =>
    if c.typ == "mdastAttributes" then
      match h2 : revRest with
      | p :: revRest2 =>
        if isInline p.typ && getPositionGap p c == 0 then
          goResolve pt plang pd (mergeAttributesToNode p (attrsToProps c.attributes) :: revRest2) suffix
        else if suffix.isEmpty && !isInline pt then
          goResolve pt plang (mergeAttrsData pd pt plang (attrsToProps c.attributes)) (p :: revRest2) suffix
        else
          goResolve pt plang pd (p :: revRest2) (orphanTextNode c :: suffix)
      | [] =>
        if suffix.isEmpty && !isInline pt then
          goResolve pt plang (mergeAttrsData pd pt plang (attrsToProps c.attributes)) [] suffix
        else
          goResolve pt plang pd [] (orphanTextNode c :: suffix)
    else
      goResolve pt plang pd revRest (processNode c :: suffix)
termination_by 1 + msizeList revPre
decreasing_by
  all_goals (try simp only [h2])
  all_goals simp [msizeList, msize_mergeAttributesToNode]
  all_goals (try have hc := msize_pos c)
  all_goals (try have hp := msize_pos p)
  all_goals omega

end

/-- `handleAttributeNode(parent, index, attrNode)`, Rule 2 and Rule 3
(src/lib/index.js lines 192-211), split out of the rule dispatch below.
`index === children.length - 1` is modelled as `index + 1 == length`
(equivalent over the natural numbers, including for an empty array where the
JS comparison against `-1` is false). -/
def handleRuleBC (parent : Node) (index : Nat) (attrNode : Node) (children : List Node) : Node :=
  if index + 1 == children.length && !isInline parent.typ then
    (mergeAttributesToNode parent (attrsToProps attrNode.attributes)).setChildren
      (some (children.eraseIdx index))
  else
    parent.setChildren (some (children.set index (orphanTextNode attrNode)))

/-- `handleAttributeNode(parent, index, attrNode)` (src/lib/index.js lines
177-212), acting on the parent node: Rule 1 merges into an inline previous
sibling at character gap zero and splices the fragment out; otherwise Rules
2 and 3 (`handleRuleBC`) apply.  Callers always pass a parent whose
`children` array contains `attrNode` at `index`. -/
def handleAttributeNode (parent : Node) (index : Nat) (attrNode : Node) : Node :=
  let children := (parent.children).getD []
  let prevSibling := if index > 0 then children[index - 1]? else none
  match prevSibling with
  | some p =>
    if isInline p.typ && getPositionGap p attrNode == 0 then
      parent.setChildren
        (some ((children.set (index - 1)
          (mergeAttributesToNode p (attrsToProps attrNode.attributes))).eraseIdx index))
    else handleRuleBC parent index attrNode children
  | none => handleRuleBC parent index attrNode children

/-!
Pass 6: `promoteTightListAttributes` (src/lib/index.js lines 380-400).
For a non-spread list, each `listItem` child has every `paragraph`
grandchild's non-empty `hProperties` bag merged onto the item and deleted
from the paragraph; then all children are recursed into.
-/

/-- The promotion condition on a grandchild (line 387-388):
`grandchild.type === 'paragraph' && grandchild.data?.hProperties &&
Object.keys(grandchild.data.hProperties).length > 0`, yielding the bag. -/
def promotableBag (g : Node) : Option Bag :=
  if g.typ == "paragraph" then
    match g.dat with
    | some d =>
      match d.hProperties with
      | some hp => if hp.isEmpty then none else some hp
      | none => none
    | none => none
  else none

/-- `delete grandchild.data.hProperties` (line 390). -/
def promoteClearBag (g : Node) : Node :=
  match g.dat with
  | some d => g.setDat (some { d with hProperties := none })
  | none => g

/-- The per-`listItem` loop body of `promoteTightListAttributes` (lines
385-393): merge each promotable grandchild bag onto the item, in order, and
clear it on the grandchild.  A `listItem` without a `children` field is
returned unchanged (the JS would throw iterating `undefined`; `listItem`
nodes always carry children). -/
def promoteItemStep (child : Node) : Node :=
  if child.typ == "listItem" then
    match child.children with
    | some gs =>
      let r := gs.foldl
        (fun (acc : Node × List Node) g =>
          match promotableBag g with
          | some hp => (mergeAttributesToNode acc.1 hp, acc.2 ++ [promoteClearBag g])
          | none => (acc.1, acc.2 ++ [g]))
        (child, [])
      r.1.setChildren (some r.2)
    | none => child
  else child

theorem msize_promoteClearBag (g : Node) : (promoteClearBag g).msize = g.msize := by
  unfold promoteClearBag
  cases g.dat <;> simp [msize_setDat]

theorem promoteFold_snd_msize (gs : List Node) : ∀ (x : Node) (acc : List Node),
    msizeList (gs.foldl
      (fun (acc : Node × List Node) g =>
        match promotableBag g with
        | some hp => (mergeAttributesToNode acc.1 hp, acc.2 ++ [promoteClearBag g])
        | none => (acc.1, acc.2 ++ [g]))
      (x, acc)).2 = msizeList acc + msizeList gs := by
  induction gs with
  | nil => intro x acc; simp [msizeList]
  | cons g rest ih =>
    intro x acc
    simp only [List.foldl_cons]
    cases hb : promotableBag g with
    | some hp =>
      simp only [hb, ih, msizeList_append, msizeList, msize_promoteClearBag]
      omega
    | none =>
      simp only [hb, ih, msizeList_append, msizeList]
      omega

theorem msize_setChildren_some (n : Node) (l : List Node) :
    (n.setChildren (some l)).msize = 2 + msizeList l := by
  cases n with
  | mk t cs p d v a lg s => simp [Node.setChildren, Node.msize]

theorem msize_promoteItemStep (c : Node) : (promoteItemStep c).msize = c.msize := by
  unfold promoteItemStep
  cases c with
  | mk t cs pos d v a lg sp =>
    by_cases ht : (t == "listItem") = true
    · simp only [Node.typ, ht, if_true]
      cases cs with
      | none => rfl
      | some gs =>
        simp only [Node.children]
        rw [msize_setChildren_some]
        rw [promoteFold_snd_msize]
        simp [Node.msize, msizeList]
    · simp only [Node.typ] at ht ⊢
      rw [if_neg ht]

theorem msize_mem_promoteList (b : Bool) (l : List Node) (c : Node)
    (h : c ∈ (if b then l.map promoteItemStep else l)) : c.msize ≤ msizeList l := by
  cases b with
  | false => simpa using msize_mem_le c l (by simpa using h)
  | true =>
    simp only [if_true] at h
    rcases List.mem_map.mp h with ⟨x, hx, hcx⟩
    have := msize_mem_le x l hx
    rw [← hcx, msize_promoteItemStep]
    exact this

def promoteTightListAttributes : Node → Node
  | n@(.mk t cs pos d v a lg sp) =>
    match cs with
    | none => n
    | some l =>
      let l1 := if t == "list" && !sp then l.map promoteItemStep else l
      .mk t (some (l1.attach.map (fun c => promoteTightListAttributes c.1))) pos d v a lg sp
termination_by n => n.msize
decreasing_by
  rename_i hmem
  have h1 := msize_mem_promoteList _ l c.1 (by exact c.2)
  simp [Node.msize]
  omega

/-- `attributesTransform(tree)` (src/lib/index.js lines 95-120): the six
passes in source order. -/
def attributesTransform (tree : Node) : Node :=
  promoteTightListAttributes
    (processNode
      (processTrailingInParent
        (processStandaloneInParent
          (processThematicBreaksInParent
            (processCodeBlocks tree)))))

/-!
Concrete example nodes used by witnesses.
-/

/-- An inline (emphasis) node ending at character offset 4. -/
def exEm : Node := .mk "emphasis" none (some ⟨⟨some 1, some 0⟩, ⟨some 1, some 4⟩⟩) none "em" [] none false

/-- A plain text node (not inline-capable for attachment). -/
def exTxt : Node := .mk "text" none (some ⟨⟨some 1, some 0⟩, ⟨some 1, some 4⟩⟩) none "plain" [] none false

/-- A fragment starting at character offset 4 (zero gap after `exEm`). -/
def exFrag0 : Node := .mk "mdastAttributes" none (some ⟨⟨some 1, some 4⟩, ⟨some 1, some 9⟩⟩) none "\x7b#x\x7d" [("id", "x")] none false

/-!
Support lemmas.
-/

theorem getElem?_eraseIdx_lt {α : Type} (l : List α) (i j : Nat) (h : j < i) :
    (l.eraseIdx i)[j]? = l[j]? := by
  induction l generalizing i j with
  | nil => simp [List.eraseIdx]
  | cons x xs ih =>
    cases i with
    | zero => omega
    | succ i2 =>
      cases j with
      | zero => simp [List.eraseIdx]
      | succ j2 =>
        simp only [List.eraseIdx, List.getElem?_cons_succ]
        exact ih i2 j2 (by omega)

theorem ruleA_bool_false (p c : Node)
    (h : ¬(isInline p.typ = true ∧ getPositionGap p c = 0)) :
    (isInline p.typ && getPositionGap p c == 0) = false := by
  by_cases h1 : isInline p.typ = true
  · have h2 : getPositionGap p c ≠ 0 := fun hg => h ⟨h1, hg⟩
    simp [h1, h2]
  · simp only [Bool.not_eq_true] at h1
    simp [h1]

/-- C2: in the generic resolver, a fragment is merged into its previous
sibling exactly when that sibling exists, its kind is inline-capable, and
the character-offset gap between the sibling's end offset and the fragment's
start offset is exactly zero.  A nonzero gap, or a missing end or start
offset on either node (which makes `getPositionGap` return `-1`, never
zero), makes Rule A not fire: the dispatch falls through to the later rules
(`handleRuleBC`) with the previous sibling untouched, and no error is
raised (the functions are total). -/
theorem claim2_rule_a_zero_gap
    (pt : String) (cs : List Node) (ppos : Option Pos) (pd : Option NodeData)
    (pv : String) (pa : Attrs) (plg : Option String) (psp : Bool)
    (index : Nat) (attrNode p : Node)
    (hpos : 0 < index) (hprev : cs[index - 1]? = some p) :
    (isInline p.typ = true ∧ getPositionGap p attrNode = 0 →
       handleAttributeNode (Node.mk pt (some cs) ppos pd pv pa plg psp) index attrNode =
         Node.mk pt (some ((cs.set (index - 1)
             (mergeAttributesToNode p (attrsToProps attrNode.attributes))).eraseIdx index))
           ppos pd pv pa plg psp)
    ∧ (¬(isInline p.typ = true ∧ getPositionGap p attrNode = 0) →
       handleAttributeNode (Node.mk pt (some cs) ppos pd pv pa plg psp) index attrNode =
         handleRuleBC (Node.mk pt (some cs) ppos pd pv pa plg psp) index attrNode cs ∧
       ((handleRuleBC (Node.mk pt (some cs) ppos pd pv pa plg psp) index attrNode cs).children.getD [])[index - 1]?
           = some p)
    ∧ (p.position.bind (fun q => q.stop.offset) = none ∨
         attrNode.position.bind (fun q => q.start.offset) = none →
       getPositionGap p attrNode = -1) := by
  refine ⟨?_, ?_, ?_⟩
  · rintro ⟨hin, hgap⟩
    simp [handleAttributeNode, hpos, hprev, hin, hgap]
  · intro hna
    have hb := ruleA_bool_false p attrNode hna
    constructor
    · simp [handleAttributeNode, hpos, hprev, hb]
    · unfold handleRuleBC
      by_cases hbc : index + 1 = cs.length ∧ isInline pt = false
      · rcases hbc with ⟨hb1, hb2⟩
        simp [hb1, hb2, mergeAttributesToNode,
          getElem?_eraseIdx_lt cs index (index - 1) (show index - 1 < index by omega), hprev]
      · simp [hbc,
          List.getElem?_set_ne (show index ≠ index - 1 by omega), hprev]
  · intro h
    unfold getPositionGap
    rcases hb : p.position.bind (fun q => q.stop.offset) with _ | b <;>
      rcases ha : attrNode.position.bind (fun q => q.start.offset) with _ | a <;>
      simp_all

/-- C2 witness: an emphasis sibling ending at offset 4 followed by a
fragment starting at offset 4 is merged into by Rule A. -/
theorem claim2_witness :
    isInline exEm.typ = true ∧ getPositionGap exEm exFrag0 = 0 ∧
    handleAttributeNode (Node.mk "paragraph" (some [exEm, exFrag0]) none none "" [] none false) 1 exFrag0 =
      Node.mk "paragraph" (some [mergeAttributesToNode exEm (attrsToProps exFrag0.attributes)]) none none "" [] none false := by
  refine ⟨by decide, by decide, ?_⟩
  have h := (claim2_rule_a_zero_gap "paragraph" [exEm, exFrag0] none none "" [] none false
    1 exFrag0 exEm (by decide) (by decide)).1 ⟨by decide, by decide⟩
  rw [h]
  decide

/-- C3: when neither Rule A nor Rule B applies, the fragment is replaced in
place by a text node: same index, parent child count unchanged, the text
value byte-for-byte equal to the fragment's original matched source text,
and the fragment's position carried over (including absent positions). -/
theorem claim3_orphan_fallback
    (pt : String) (cs : List Node) (ppos : Option Pos) (pd : Option NodeData)
    (pv : String) (pa : Attrs) (plg : Option String) (psp : Bool)
    (index : Nat) (attrNode : Node)
    (hi : index < cs.length)
    (hA : ∀ p, cs[index - 1]? = some p → 0 < index →
       ¬(isInline p.typ = true ∧ getPositionGap p attrNode = 0))
    (hB : ¬(index + 1 = cs.length ∧ isInline pt = false)) :
    handleAttributeNode (Node.mk pt (some cs) ppos pd pv pa plg psp) index attrNode =
      Node.mk pt (some (cs.set index (orphanTextNode attrNode))) ppos pd pv pa plg psp
    ∧ (cs.set index (orphanTextNode attrNode)).length = cs.length
    ∧ (cs.set index (orphanTextNode attrNode))[index]? = some (orphanTextNode attrNode)
    ∧ (orphanTextNode attrNode).typ = "text"
    ∧ (orphanTextNode attrNode).value = attrNode.value
    ∧ (orphanTextNode attrNode).position = attrNode.position := by
  have hbc : (index + 1 == cs.length && !isInline pt) = false := by
    by_cases h1 : index + 1 = cs.length
    · have h2 : isInline pt = true := by
        by_cases h3 : isInline pt = true
        · exact h3
        · exact absurd ⟨h1, by simpa using h3⟩ hB
      simp [h2]
    · simp [h1]
  refine ⟨?_, by simp, by simp [List.getElem?_set_eq_of_lt _ hi], by simp [orphanTextNode],
    by simp [orphanTextNode], by simp [orphanTextNode]⟩
  rcases Nat.eq_zero_or_pos index with hz | hz
  · subst hz
    simp [handleAttributeNode, handleRuleBC, hbc]
  · obtain ⟨p, hp⟩ : ∃ p, cs[index - 1]? = some p := by
      have hlt : index - 1 < cs.length := by omega
      exact ⟨cs[index - 1], List.getElem?_eq_getElem hlt⟩
    by_cases h1 : isInline p.typ = true
    · have h2 : getPositionGap p attrNode ≠ 0 := fun hg => (hA p hp hz) ⟨h1, hg⟩
      simp [handleAttributeNode, handleRuleBC, hz, hp, h1, h2, hbc]
    · have h1b : isInline p.typ = false := by simpa using h1
      simp [handleAttributeNode, handleRuleBC, hz, hp, h1b, hbc]

/-- C3 witness: a fragment at index 0 of a two-child paragraph (not last,
no previous sibling) degrades to a text node in place. -/
theorem claim3_witness :
    handleAttributeNode (Node.mk "paragraph" (some [exFrag0, exTxt]) none none "" [] none false) 0 exFrag0 =
      Node.mk "paragraph" (some [orphanTextNode exFrag0, exTxt]) none none "" [] none false ∧
    (orphanTextNode exFrag0).value = exFrag0.value ∧
    (orphanTextNode exFrag0).position = exFrag0.position := by
  have h := claim3_orphan_fallback "paragraph" [exFrag0, exTxt] none none "" [] none false 0 exFrag0
    (by decide) (fun p hp h0 => absurd h0 (by decide)) (by decide)
  refine ⟨?_, h.2.2.2.2.1, h.2.2.2.2.2⟩
  rw [h.1]
  decide

/-- C4: when Rule A does not apply, a fragment that is the last child is
merged into the parent and deleted for every parent kind that is not
inline-capable (the parent type is universally quantified: no block-kind
whitelist restricts the target), and it is not merged into the parent when
the parent is inline-capable or the fragment is not the last child (the
parent's data is left at `pd` by the Rule 3 result). -/
theorem claim4_rule_b_parent_attach
    (pt : String) (cs : List Node) (ppos : Option Pos) (pd : Option NodeData)
    (pv : String) (pa : Attrs) (plg : Option String) (psp : Bool)
    (index : Nat) (attrNode : Node)
    (hi : index < cs.length)
    (hA : ∀ p, cs[index - 1]? = some p → 0 < index →
       ¬(isInline p.typ = true ∧ getPositionGap p attrNode = 0)) :
    (index + 1 = cs.length → isInline pt = false →
       handleAttributeNode (Node.mk pt (some cs) ppos pd pv pa plg psp) index attrNode =
         Node.mk pt (some (cs.eraseIdx index)) ppos
           (mergeAttrsData pd pt plg (attrsToProps attrNode.attributes)) pv pa plg psp)
    ∧ (isInline pt = true ∨ index + 1 ≠ cs.length →
       handleAttributeNode (Node.mk pt (some cs) ppos pd pv pa plg psp) index attrNode =
         Node.mk pt (some (cs.set index (orphanTextNode attrNode))) ppos pd pv pa plg psp) := by
  constructor
  · intro hlast hnotinline
    have hbc : (index + 1 == cs.length && !isInline pt) = true := by simp [hlast, hnotinline]
    rcases Nat.eq_zero_or_pos index with hz | hz
    · subst hz
      simp [handleAttributeNode, handleRuleBC, hlast, hnotinline, mergeAttributesToNode]
    · obtain ⟨p, hp⟩ : ∃ p, cs[index - 1]? = some p := by
        have hlt : index - 1 < cs.length := by omega
        exact ⟨cs[index - 1], List.getElem?_eq_getElem hlt⟩
      by_cases h1 : isInline p.typ = true
      · have h2 : getPositionGap p attrNode ≠ 0 := fun hg => (hA p hp hz) ⟨h1, hg⟩
        simp [handleAttributeNode, handleRuleBC, hz, hp, h1, h2, hlast, hnotinline, mergeAttributesToNode]
      · have h1b : isInline p.typ = false := by simpa using h1
        simp [handleAttributeNode, handleRuleBC, hz, hp, h1b, hlast, hnotinline, mergeAttributesToNode]
  · intro hno
    have hnbc : ¬(index + 1 = cs.length ∧ isInline pt = false) := by
      rcases hno with h1 | h1
      · rintro ⟨_, hx⟩
        rw [h1] at hx
        cases hx
      · rintro ⟨hx, _⟩
        exact h1 hx
    rcases Nat.eq_zero_or_pos index with hz | hz
    · subst hz
      simp [handleAttributeNode, handleRuleBC, hnbc]
    · obtain ⟨p, hp⟩ : ∃ p, cs[index - 1]? = some p := by
        have hlt : index - 1 < cs.length := by omega
        exact ⟨cs[index - 1], List.getElem?_eq_getElem hlt⟩
      by_cases h1 : isInline p.typ = true
      · have h2 : getPositionGap p attrNode ≠ 0 := fun hg => (hA p hp hz) ⟨h1, hg⟩
        simp [handleAttributeNode, handleRuleBC, hz, hp, h1, h2, hnbc]
      · have h1b : isInline p.typ = false := by simpa using h1
        simp [handleAttributeNode, handleRuleBC, hz, hp, h1b, hnbc]

/-- C4 witness: a fragment that is the last child of a heading (a kind
outside the inline set) is merged into the heading's data and removed. -/
theorem claim4_witness :
    handleAttributeNode (Node.mk "heading" (some [exTxt, exFrag0]) none none "" [] none false) 1 exFrag0 =
      Node.mk "heading" (some [exTxt]) none
        (mergeAttrsData none "heading" none (attrsToProps exFrag0.attributes)) "" [] none false := by
  have h := (claim4_rule_b_parent_attach "heading" [exTxt, exFrag0] none none "" [] none false 1 exFrag0
    (by decide)
    (by
      intro p hp h0
      have hpe : p = exTxt := by simpa using hp.symm
      subst hpe
      decide)).1 (by decide) (by decide)
  rw [h]
  decide

theorem getProp_cons_hit (kv : String × PropVal) (rest : Bag) (k : String)
    (h : (kv.1 == k) = true) : getProp (kv :: rest) k = some kv.2 := by
  unfold getProp
  simp only [List.find?, h]
  rfl

theorem getProp_cons_miss (kv : String × PropVal) (rest : Bag) (k : String)
    (h : (kv.1 == k) = false) : getProp (kv :: rest) k = getProp rest k := by
  unfold getProp
  simp only [List.find?, h]

theorem getProp_append_not_found (b : Bag) (k : String) (v : PropVal)
    (h : ∀ kv ∈ b, (kv.1 == k) = false) :
    getProp (b ++ [(k, v)]) k = some v := by
  induction b with
  | nil =>
    rw [List.nil_append, getProp_cons_hit _ _ _ (by simp)]
  | cons kv rest ih =>
    rw [List.cons_append, getProp_cons_miss _ _ _ (h kv (by simp))]
    exact ih (fun x hx => h x (by simp [hx]))

theorem getProp_map_replace (b : Bag) (k : String) (v : PropVal)
    (h : b.any (fun kv => kv.1 == k) = true) :
    getProp (b.map (fun kv => if kv.1 == k then (k, v) else kv)) k = some v := by
  induction b with
  | nil => simp at h
  | cons kv rest ih =>
    by_cases h0 : (kv.1 == k) = true
    · simp only [List.map_cons, if_pos h0]
      rw [getProp_cons_hit _ _ _ (by simp)]
    · have h1 : rest.any (fun kv => kv.1 == k) = true := by
        rcases List.any_eq_true.mp h with ⟨x, hx, hpx⟩
        rcases List.mem_cons.mp hx with rfl | hx2
        · exact absurd hpx h0
        · exact List.any_eq_true.mpr ⟨x, hx2, hpx⟩
      simp only [List.map_cons, if_neg h0]
      rw [getProp_cons_miss _ _ _ (by simpa using h0)]
      exact ih h1

theorem getProp_setProp (b : Bag) (k : String) (v : PropVal) :
    getProp (setProp b k v) k = some v := by
  unfold setProp
  by_cases h : b.any (fun kv => kv.1 == k) = true
  · simp only [h, if_true]
    exact getProp_map_replace b k v h
  · simp only [h, if_false]
    have h2 : ∀ kv ∈ b, (kv.1 == k) = false := by
      intro kv hkv
      by_cases hx : (kv.1 == k) = true
      · exact absurd (List.any_eq_true.mpr ⟨kv, hkv, hx⟩) h
      · simpa using hx
    exact getProp_append_not_found b k v h2

theorem getProp_append_other (b : Bag) (k k2 : String) (v : PropVal) (h : k2 ≠ k) :
    getProp (b ++ [(k2, v)]) k = getProp b k := by
  induction b with
  | nil =>
    rw [List.nil_append, getProp_cons_miss _ _ _ (by simpa using h)]
  | cons kv rest ih =>
    by_cases h0 : (kv.1 == k) = true
    · rw [List.cons_append, getProp_cons_hit _ _ _ h0, getProp_cons_hit _ _ _ h0]
    · rw [List.cons_append, getProp_cons_miss _ _ _ (by simpa using h0),
        getProp_cons_miss _ _ _ (by simpa using h0)]
      exact ih

theorem getProp_map_replace_other (b : Bag) (k k2 : String) (v : PropVal) (h : k2 ≠ k) :
    getProp (b.map (fun kv => if kv.1 == k2 then (k2, v) else kv)) k = getProp b k := by
  induction b with
  | nil => simp [getProp]
  | cons kv rest ih =>
    by_cases h0 : (kv.1 == k2) = true
    · have he : kv.1 = k2 := by simpa using h0
      have hk : (kv.1 == k) = false := by
        rw [he]
        simpa using h
      simp only [List.map_cons, if_pos h0]
      rw [getProp_cons_miss _ _ _ (by simpa using h), getProp_cons_miss _ _ _ hk]
      exact ih
    · by_cases h1 : (kv.1 == k) = true
      · simp only [List.map_cons, if_neg h0]
        rw [getProp_cons_hit _ _ _ h1, getProp_cons_hit _ _ _ h1]
      · simp only [List.map_cons, if_neg h0]
        rw [getProp_cons_miss _ _ _ (by simpa using h1), getProp_cons_miss _ _ _ (by simpa using h1)]
        exact ih

theorem getProp_setProp_ne (b : Bag) (k k2 : String) (v : PropVal) (h : k2 ≠ k) :
    getProp (setProp b k2 v) k = getProp b k := by
  unfold setProp
  by_cases ha : b.any (fun kv => kv.1 == k2) = true
  · simp only [ha, if_true]
    exact getProp_map_replace_other b k k2 v h
  · simp only [ha, if_false]
    exact getProp_append_other b k k2 v h

theorem classTokensFold_spec (ts : List String) : ∀ (E : List String), E.Nodup →
    ∃ extra, (ts.foldl (fun ex cls => if cls != "" && !ex.contains cls then ex ++ [cls] else ex) E) = E ++ extra ∧
      (E ++ extra).Nodup ∧
      (∀ tok ∈ ts, tok ≠ "" → tok ∈ E ++ extra) ∧
      (∀ x ∈ extra, x ∈ ts ∧ x ≠ "" ∧ x ∉ E) := by
  induction ts with
  | nil =>
    intro E hnd
    exact ⟨[], by simp, by simpa using hnd, by simp, by simp⟩
  | cons t rest ih =>
    intro E hnd
    by_cases hc : (t != "" && !E.contains t) = true
    · have hc2 := hc
      rw [Bool.and_eq_true] at hc2
      have ht : t ≠ "" := by simpa using hc2.1
      have hni : t ∉ E := by simpa using hc2.2
      have hnd2 : (E ++ [t]).Nodup := by
        rw [List.nodup_append]
        exact ⟨hnd, List.nodup_singleton t, by simpa using hni⟩
      obtain ⟨extra, he, hnd3, hcompl, hmem⟩ := ih (E ++ [t]) hnd2
      refine ⟨t :: extra, ?_, ?_, ?_, ?_⟩
      · simpa only [List.foldl_cons, if_pos hc, List.append_assoc, List.singleton_append] using he
      · simpa only [List.append_assoc, List.singleton_append] using hnd3
      · intro tok htok hne
        rcases List.mem_cons.mp htok with rfl | h3
        · simp
        · have := hcompl tok h3 hne
          simpa only [List.append_assoc, List.singleton_append] using this
      · intro x hx
        rcases List.mem_cons.mp hx with rfl | h3
        · exact ⟨by simp, ht, hni⟩
        · obtain ⟨hm1, hm2, hm3⟩ := hmem x h3
          exact ⟨by simp [hm1], hm2, fun hcon => hm3 (by simp [hcon])⟩
    · have hor : t = "" ∨ t ∈ E := by
        by_cases he : t = ""
        · exact Or.inl he
        · right
          by_cases hm : t ∈ E
          · exact hm
          · exact absurd (by simp [he, hm]) hc
      obtain ⟨extra, he2, hnd3, hcompl, hmem⟩ := ih E hnd
      refine ⟨extra, ?_, hnd3, ?_, ?_⟩
      · simpa only [List.foldl_cons, if_neg hc] using he2
      · intro tok htok hne
        rcases List.mem_cons.mp htok with rfl | h3
        · rcases hor with h4 | h4
          · exact absurd h4 hne
          · exact List.mem_append.mpr (Or.inl h4)
        · exact hcompl tok h3 hne
      · intro x hx
        obtain ⟨hm1, hm2, hm3⟩ := hmem x hx
        exact ⟨by simp [hm1], hm2, hm3⟩

theorem classInject_not_code (E : List String) (t : String) (lg : Option String) (h : t ≠ "code") :
    classInject E (some (t, lg)) = E := by
  unfold classInject
  cases lg with
  | none => rfl
  | some lg2 =>
    have : (t == "code") = false := by simpa using h
    simp [this]

/-- C5 counterexample: the spec says the class value is split on whitespace,
but `mergeAttributes` splits only on the space character U+0020
(`value.split(' ')`).  Merging `class: "a\tb"` keeps the tab inside a single
token instead of splitting it into `a` and `b`. -/
theorem claim5_counterexample :
    mergeAttributes [] [("class", PropVal.str "a\tb")] (some ("paragraph", none)) =
      [("className", PropVal.arr ["a\tb"])] ∧
    ∃ tok ∈ classNameArr (mergeAttributes [] [("class", PropVal.str "a\tb")] (some ("paragraph", none))),
      '\t' ∈ tok.data := by
  decide

/-- C5 (amended): the bag merger treats the key `class` specially: the value
is split on the space character U+0020 (not general whitespace) into tokens,
each non-empty token is appended to the class token sequence only when not
already present (order-preserving de-duplication), the entry is always
stored as a token array under `className`, and merging `class: "a b"` then
`class: "b c"` yields exactly the token sequence `[a, b, c]`. -/
theorem claim5_class_space_tokens :
    (∀ (tgt : Bag) (v : String) (t : String) (lg : Option String),
       t ≠ "code" → (classNameArr tgt).Nodup →
       ∃ extra,
         getProp (mergeAttributes tgt [("class", .str v)] (some (t, lg))) "className" =
             some (.arr (classNameArr tgt ++ extra)) ∧
         (classNameArr tgt ++ extra).Nodup ∧
         (∀ tok ∈ splitOnSpace v, tok ≠ "" → tok ∈ classNameArr tgt ++ extra) ∧
         (∀ x ∈ extra, x ∈ splitOnSpace v ∧ x ≠ "" ∧ x ∉ classNameArr tgt))
    ∧ mergeAttributes (mergeAttributes [] [("class", .str "a b")] (some ("paragraph", none)))
        [("class", .str "b c")] (some ("paragraph", none)) = [("className", .arr ["a", "b", "c"])] := by
  constructor
  · intro tgt v t lg ht hnd
    obtain ⟨extra, he, hnd2, hcompl, hmem⟩ := classTokensFold_spec (splitOnSpace v) (classNameArr tgt) hnd
    refine ⟨extra, ?_, hnd2, hcompl, hmem⟩
    show getProp (List.foldl _ tgt [("class", PropVal.str v)]) "className" = _
    simp only [List.foldl_cons, List.foldl_nil]
    rw [if_pos (by decide)]
    rw [classInject_not_code _ t lg ht]
    rw [getProp_setProp]
    rw [show classTokensFold (classNameArr tgt) v = classNameArr tgt ++ extra from he]
  · decide

theorem foldl_tokens_prefix (ts : List String) : ∀ E : List String,
    ∃ ext, ts.foldl (fun ex cls => if cls != "" && !ex.contains cls then ex ++ [cls] else ex) E = E ++ ext := by
  induction ts with
  | nil => intro E; exact ⟨[], by simp⟩
  | cons t rest ih =>
    intro E
    by_cases hc : (t != "" && !E.contains t) = true
    · obtain ⟨ext, he⟩ := ih (E ++ [t])
      exact ⟨t :: ext, by simpa only [List.foldl_cons, if_pos hc, List.append_assoc, List.singleton_append] using he⟩
    · obtain ⟨ext, he⟩ := ih E
      exact ⟨ext, by simpa only [List.foldl_cons, if_neg hc] using he⟩

theorem classTokensFold_prefix (E : List String) (s : String) :
    ∃ ext, classTokensFold E s = E ++ ext :=
  foldl_tokens_prefix (splitOnSpace s) E

theorem classNameArr_of_none (b : Bag) (h : getProp b "className" = none) :
    classNameArr b = [] := by
  unfold classNameArr
  rw [h]

theorem classNameArr_of_arr (b : Bag) (l : List String) (h : getProp b "className" = some (.arr l)) :
    classNameArr b = l := by
  unfold classNameArr
  rw [h]

theorem classInject_code_lang (E : List String) (lg : String) (hlg : lg ≠ "") :
    classInject E (some ("code", some lg)) =
      (if E.contains ("language-" ++ lg) then E else E ++ ["language-" ++ lg]) := by
  unfold classInject
  have h1 : (lg != "") = true := by simpa using hlg
  simp [h1]

theorem mergeAttributes_code_lang_invariant (lg : String) (hlg : lg ≠ "") (m : Bag)
    (hnc : ∀ kv ∈ m, kv.1 ≠ "className") :
    ∀ tgt : Bag,
      (getProp tgt "className" = none ∨
        ∃ rest, getProp tgt "className" = some (.arr (("language-" ++ lg) :: rest))) →
      ((getProp (mergeAttributes tgt m (some ("code", some lg))) "className" = none ∨
         ∃ rest, getProp (mergeAttributes tgt m (some ("code", some lg))) "className" =
           some (.arr (("language-" ++ lg) :: rest))) ∧
       ((∃ kv ∈ m, kv.1 = "class") ∨
          (∃ rest, getProp tgt "className" = some (.arr (("language-" ++ lg) :: rest))) →
         ∃ rest, getProp (mergeAttributes tgt m (some ("code", some lg))) "className" =
           some (.arr (("language-" ++ lg) :: rest)))) := by
  induction m with
  | nil =>
    intro tgt hP
    constructor
    · exact hP
    · intro hh
      rcases hh with ⟨kv, hkv, _⟩ | hh
      · cases hkv
      · exact hh
  | cons kv m2 ih =>
    intro tgt hP
    have hnc2 : ∀ x ∈ m2, x.1 ≠ "className" := fun x hx => hnc x (by simp [hx])
    by_cases hk : (kv.1 == "class") = true
    · have hstep : mergeAttributes tgt (kv :: m2) (some ("code", some lg)) =
          mergeAttributes (setProp tgt "className"
            (.arr (match kv.2 with
              | .str s => classTokensFold (classInject (classNameArr tgt) (some ("code", some lg))) s
              | .arr _ => classInject (classNameArr tgt) (some ("code", some lg)))))
            m2 (some ("code", some lg)) := by
        show List.foldl _ _ (kv :: m2) = _
        rw [List.foldl_cons]
        rw [if_pos hk]
        rfl
      rw [hstep]
      have hlchead : ∃ rest2,
          (match kv.2 with
            | PropVal.str s => classTokensFold (classInject (classNameArr tgt) (some ("code", some lg))) s
            | PropVal.arr _ => classInject (classNameArr tgt) (some ("code", some lg))) =
          ("language-" ++ lg) :: rest2 := by
        have hE : ∃ pre, classInject (classNameArr tgt) (some ("code", some lg)) =
            ("language-" ++ lg) :: pre := by
          rcases hP with hnone | ⟨rest, hsome⟩
          · rw [classNameArr_of_none tgt hnone, classInject_code_lang _ lg hlg]
            exact ⟨[], by simp⟩
          · rw [classNameArr_of_arr tgt _ hsome, classInject_code_lang _ lg hlg]
            exact ⟨rest, by simp⟩
        obtain ⟨pre, hpre⟩ := hE
        cases hv : kv.2 with
        | str s =>
          obtain ⟨ext, hext⟩ := classTokensFold_prefix (("language-" ++ lg) :: pre) s
          refine ⟨pre ++ ext, ?_⟩
          simp only [hv]
          rw [hpre, hext]
          simp
        | arr a =>
          refine ⟨pre, ?_⟩
          simp only [hv]
          exact hpre
      obtain ⟨rest2, hr2⟩ := hlchead
      rw [hr2]
      have htgt2 : getProp (setProp tgt "className" (PropVal.arr (("language-" ++ lg) :: rest2)))
          "className" = some (.arr (("language-" ++ lg) :: rest2)) := getProp_setProp _ _ _
      obtain ⟨hP2, hK2⟩ := ih hnc2 _ (Or.inr ⟨rest2, htgt2⟩)
      exact ⟨hP2, fun _ => hK2 (Or.inr ⟨rest2, htgt2⟩)⟩
    · have hstep : mergeAttributes tgt (kv :: m2) (some ("code", some lg)) =
          mergeAttributes (setProp tgt kv.1 kv.2) m2 (some ("code", some lg)) := by
        show List.foldl _ _ (kv :: m2) = _
        rw [List.foldl_cons]
        rw [if_neg (by simpa using hk)]
        rfl
      rw [hstep]
      have hpres : getProp (setProp tgt kv.1 kv.2) "className" = getProp tgt "className" :=
        getProp_setProp_ne tgt "className" kv.1 kv.2 (hnc kv (by simp))
      have hP2 : getProp (setProp tgt kv.1 kv.2) "className" = none ∨
          ∃ rest, getProp (setProp tgt kv.1 kv.2) "className" =
            some (.arr (("language-" ++ lg) :: rest)) := by
        rcases hP with h1 | ⟨rest, h1⟩
        · exact Or.inl (by rw [hpres, h1])
        · exact Or.inr ⟨rest, by rw [hpres, h1]⟩
      obtain ⟨hQ, hK⟩ := ih hnc2 _ hP2
      refine ⟨hQ, ?_⟩
      intro hh
      rcases hh with ⟨x, hx, hxc⟩ | ⟨rest, h1⟩
      · rcases List.mem_cons.mp hx with rfl | hx2
        · exact absurd (by simpa using hxc) (by simpa using hk)
        · exact hK (Or.inl ⟨x, hx2, hxc⟩)
      · exact hK (Or.inr ⟨rest, by rw [hpres, h1]⟩)

/-- C6: a fenced code node with a language identifier and a side-channel
attribute map containing a class value ends up, after the transform, with a
property bag whose `className` array holds the synthetic `language-(id)`
token first, ahead of the user tokens (added only when not already present),
and the side-channel `mdastAttributes` field deleted from its data. -/
theorem claim6_code_language_class
    (cc : Option (List Node)) (pos : Option Pos) (v : String) (a : Attrs) (sp : Bool)
    (lg : String) (m : Attrs)
    (hlg : lg ≠ "")
    (hclass : ∃ kv ∈ m, kv.1 = "class")
    (hnc : ∀ kv ∈ m, kv.1 ≠ "className") :
    (processCodeBlocks (Node.mk "code" cc pos (some ⟨none, some m⟩) v a (some lg) sp) =
       Node.mk "code" cc pos
         (some ⟨some (mergeAttributes [] (attrsToProps m) (some ("code", some lg))), none⟩) v a (some lg) sp ∧
     ∃ rest,
       getProp (mergeAttributes [] (attrsToProps m) (some ("code", some lg))) "className" =
         some (.arr (("language-" ++ lg) :: rest)))
    ∧ attributesTransform
        (Node.mk "root"
          (some [Node.mk "code" none none (some ⟨none, some [("class", "highlight")]⟩)
            "const x = 1" [] (some "js") false]) none none "" [] none false) =
      Node.mk "root"
        (some [Node.mk "code" none none
          (some ⟨some [("className", .arr ["language-js", "highlight"])], none⟩)
          "const x = 1" [] (some "js") false]) none none "" [] none false := by
  constructor
  · constructor
    · simp [processCodeBlocks, codeData]
    · have hnc2 : ∀ kv ∈ attrsToProps m, kv.1 ≠ "className" := by
        intro kv hkv
        rcases List.mem_map.mp hkv with ⟨x, hx, rfl⟩
        exact hnc x hx
      have hclass2 : ∃ kv ∈ attrsToProps m, kv.1 = "class" := by
        obtain ⟨x, hx, hxc⟩ := hclass
        exact ⟨(x.1, PropVal.str x.2), List.mem_map.mpr ⟨x, hx, rfl⟩, hxc⟩
      have hbase : getProp ([] : Bag) "className" = none := by simp [getProp]
      exact (mergeAttributes_code_lang_invariant lg hlg (attrsToProps m) hnc2 []
        (Or.inl hbase)).2 (Or.inl hclass2)
  · simp +decide [attributesTransform, processCodeBlocks, codeData, processCodeBlocksList,
      processThematicBreaksInParent, thematicBreakChildren, thematicBreakChild,
      processStandaloneInParent, standaloneGo, processTrailingInParent, trailingGo,
      processNode, goResolve, promoteTightListAttributes, promoteItemStep,
      getStandaloneAttributesFromParagraph, areDirectlyAdjacent, getPositionGap,
      isInline, INLINE_TYPES, mergeAttributesToNode, mergeAttrsData, mergeAttributes,
      attrsToProps, classInject, classTokensFold, splitOnSpace, splitCharsOnSpace,
      classNameArr, getProp, setProp,
      orphanTextNode, promotableBag]

theorem claim6_witness :
    ("js" : String) ≠ "" ∧
    processCodeBlocks (Node.mk "code" none none (some ⟨none, some [("class", "highlight")]⟩)
        "const x = 1" [] (some "js") false) =
      Node.mk "code" none none
        (some ⟨some (mergeAttributes [] (attrsToProps [("class", "highlight")]) (some ("code", some "js"))), none⟩)
        "const x = 1" [] (some "js") false ∧
    mergeAttributes [] (attrsToProps [("class", "highlight")]) (some ("code", some "js")) =
      [("className", .arr ["language-js", "highlight"])] := by
  refine ⟨by decide, ?_, by decide⟩
  exact (claim6_code_language_class none none "const x = 1" [] false "js" [("class", "highlight")]
    (by decide) ⟨("class", "highlight"), by simp⟩ (by decide)).1.1

theorem mergeAttributesToNode_children (n : Node) (b : Bag) :
    (mergeAttributesToNode n b).children = n.children := by
  cases n
  simp [mergeAttributesToNode]

theorem mergeAttributesToNode_typ (n : Node) (b : Bag) :
    (mergeAttributesToNode n b).typ = n.typ := by
  cases n
  simp [mergeAttributesToNode]

theorem mergeAttributesToNode_position (n : Node) (b : Bag) :
    (mergeAttributesToNode n b).position = n.position := by
  cases n
  simp [mergeAttributesToNode]

theorem getStandalone_none_children (n : Node) (h : n.children = none) :
    getStandaloneAttributesFromParagraph n = none := by
  unfold getStandaloneAttributesFromParagraph
  rw [h]
  by_cases ht : (n.typ != "paragraph") = true
  · simp [ht]
  · simp only [Bool.not_eq_true] at ht
    simp [ht]

theorem processStandaloneInParent_no_children (n : Node) (h : n.children = none) :
    processStandaloneInParent n = n := by
  cases n with
  | mk t cs pos d v a lg sp =>
    simp only [Node.children_mk] at h
    subst h
    simp [processStandaloneInParent]

theorem standaloneGo_merge (c next : Node) (rest : List Node) (frag : Node)
    (hs : getStandaloneAttributesFromParagraph c = some frag)
    (hadj : areDirectlyAdjacent c next = true) :
    standaloneGo (c :: next :: rest) =
      standaloneGo (mergeAttributesToNode next (attrsToProps frag.attributes) :: rest) := by
  rw [standaloneGo.eq_2 c frag next rest hs, if_pos hadj]

theorem standaloneGo_skip_far (c next : Node) (rest : List Node) (frag : Node)
    (hs : getStandaloneAttributesFromParagraph c = some frag)
    (hadj : areDirectlyAdjacent c next = false) :
    standaloneGo (c :: next :: rest) = processStandaloneInParent c :: standaloneGo (next :: rest) := by
  rw [standaloneGo.eq_2 c frag next rest hs, if_neg (by simp [hadj])]

theorem standaloneGo_skip_none (c : Node) (rest : List Node)
    (hs : getStandaloneAttributesFromParagraph c = none) :
    standaloneGo (c :: rest) = processStandaloneInParent c :: standaloneGo rest := by
  rw [standaloneGo.eq_3 c rest]
  intro frag next rest2 hf _
  rw [hs] at hf
  cases hf

theorem standaloneGo_last (c : Node) :
    standaloneGo [c] = [processStandaloneInParent c] := by
  rw [standaloneGo.eq_3 c []]
  · rw [standaloneGo.eq_1]
  · intro frag next rest2 _ hf
    cases hf

theorem processStandaloneInParent_some (t : String) (l : List Node) (pos : Option Pos)
    (d : Option NodeData) (v : String) (a : Attrs) (lg : Option String) (sp : Bool) :
    processStandaloneInParent (Node.mk t (some l) pos d v a lg sp) =
      Node.mk t (some (standaloneGo l)) pos d v a lg sp := by
  rw [processStandaloneInParent]

/-- C7: the forward standalone pass merges a standalone attribute paragraph
into its next sibling and deletes the paragraph exactly when the next
sibling exists and the paragraph's end line is exactly one less than the
sibling's start line; a two-line gap, or missing line information on either
node (`areDirectlyAdjacent` then returns `false`), leaves both nodes
untouched for the generic resolver. -/
theorem claim7_standalone_adjacent_attach
    (pt : String) (ppos : Option Pos) (pd : Option NodeData) (pv : String) (pa : Attrs)
    (plg : Option String) (psp : Bool)
    (parapos : Option Pos) (padat : Option NodeData) (pav : String) (paa : Attrs)
    (palg : Option String) (pasp : Bool)
    (frag B : Node)
    (hfragT : frag.typ = "mdastAttributes")
    (hfragC : frag.children = none)
    (hBc : B.children = none) :
    (areDirectlyAdjacent (Node.mk "paragraph" (some [frag]) parapos padat pav paa palg pasp) B = true →
       processStandaloneInParent (Node.mk pt
           (some [Node.mk "paragraph" (some [frag]) parapos padat pav paa palg pasp, B]) ppos pd pv pa plg psp) =
         Node.mk pt (some [mergeAttributesToNode B (attrsToProps frag.attributes)]) ppos pd pv pa plg psp)
    ∧ (areDirectlyAdjacent (Node.mk "paragraph" (some [frag]) parapos padat pav paa palg pasp) B = false →
       processStandaloneInParent (Node.mk pt
           (some [Node.mk "paragraph" (some [frag]) parapos padat pav paa palg pasp, B]) ppos pd pv pa plg psp) =
         Node.mk pt
           (some [Node.mk "paragraph" (some [frag]) parapos padat pav paa palg pasp, B]) ppos pd pv pa plg psp)
    ∧ (∀ x y : Node, areDirectlyAdjacent x y = true ↔
        ∃ el sl : Int, x.position.bind (fun q => q.stop.line) = some el ∧
          y.position.bind (fun q => q.start.line) = some sl ∧ sl - el = 1) := by
  have hstand : getStandaloneAttributesFromParagraph
      (Node.mk "paragraph" (some [frag]) parapos padat pav paa palg pasp) = some frag := by
    simp [getStandaloneAttributesFromParagraph, hfragT]
  refine ⟨?_, ?_, ?_⟩
  · intro hadj
    rw [processStandaloneInParent_some]
    rw [standaloneGo_merge _ _ [] frag hstand hadj]
    rw [standaloneGo_last]
    rw [processStandaloneInParent_no_children _ (by rw [mergeAttributesToNode_children, hBc])]
  · intro hadj
    rw [processStandaloneInParent_some]
    rw [standaloneGo_skip_far _ _ [] frag hstand hadj]
    rw [standaloneGo_last]
    rw [processStandaloneInParent_no_children B hBc]
    rw [processStandaloneInParent_some]
    rw [standaloneGo_skip_none frag [] (getStandalone_none_children frag hfragC)]
    rw [standaloneGo.eq_1]
    rw [processStandaloneInParent_no_children frag hfragC]
  · intro x y
    unfold areDirectlyAdjacent
    rcases hb : x.position.bind (fun q => q.stop.line) with _ | fe <;>
      rcases ha : y.position.bind (fun q => q.start.line) with _ | ss <;>
      simp

mutual

def fragCount : Node → Nat
  | .mk t cs _ _ _ _ _ _ =>
    (if t == "mdastAttributes" then 1 else 0) +
    (match cs with
     | some l => fragCountList l
     | none => 0)

def fragCountList : List Node → Nat
  | [] => 0
  | c :: rest => fragCount c + fragCountList rest

end

mutual

def treeHasBagKey (k : String) : Node → Bool
  | .mk _ cs _ d _ _ _ _ =>
    (match d with
     | some dd =>
       match dd.hProperties with
       | some hp => hp.any (fun kv => kv.1 == k)
       | none => false
     | none => false) ||
    (match cs with
     | some l => treeHasBagKeyList k l
     | none => false)

def treeHasBagKeyList (k : String) : List Node → Bool
  | [] => false
  | c :: rest => treeHasBagKey k c || treeHasBagKeyList k rest

end

mutual

def treeHasTextValue (s : String) : Node → Bool
  | .mk t cs _ _ v _ _ _ =>
    (t == "text" && v == s) ||
    (match cs with
     | some l => treeHasTextValueList s l
     | none => false)

def treeHasTextValueList (s : String) : List Node → Bool
  | [] => false
  | c :: rest => treeHasTextValue s c || treeHasTextValueList s rest

end

def exLossF1 : Node := .mk "mdastAttributes" none (some ⟨⟨some 1, some 0⟩, ⟨some 1, some 7⟩⟩) none "\x7bk1=v1\x7d" [("k1", "v1")] none false

def exLossF2 : Node := .mk "mdastAttributes" none (some ⟨⟨some 2, some 8⟩, ⟨some 2, some 15⟩⟩) none "\x7bk2=v2\x7d" [("k2", "v2")] none false

def exLossP1 : Node := .mk "paragraph" (some [exLossF1]) (some ⟨⟨some 1, some 0⟩, ⟨some 1, some 7⟩⟩) none "" [] none false

def exLossP2 : Node := .mk "paragraph" (some [exLossF2]) (some ⟨⟨some 2, some 8⟩, ⟨some 2, some 15⟩⟩) none "" [] none false

def exLossTxt : Node := .mk "text" none (some ⟨⟨some 3, some 18⟩, ⟨some 3, some 22⟩⟩) none "Head" [] none false

def exLossB : Node := .mk "heading" (some [exLossTxt]) (some ⟨⟨some 3, some 16⟩, ⟨some 3, some 22⟩⟩) none "" [] none false

def exLossRoot : Node := .mk "root" (some [exLossP1, exLossP2, exLossB]) none none "" [] none false

/-- C10: attributes can be discarded entirely: with two consecutive
standalone attribute paragraphs each line-adjacent to its successor and a
block after them, the forward pass merges the first fragment's attributes
onto the second paragraph's bag and deletes the first paragraph, then merges
the second fragment's attributes onto the block and deletes the second
paragraph together with the bag it had just received; the first fragment's
key `k1` appears neither in any property bag nor as text in the output. -/
theorem claim10_chained_standalone_loss :
    attributesTransform exLossRoot =
      Node.mk "root" (some [Node.mk "heading" (some [exLossTxt])
        (some ⟨⟨some 3, some 16⟩, ⟨some 3, some 22⟩⟩)
        (some ⟨some [("k2", .str "v2")], none⟩) "" [] none false]) none none "" [] none false ∧
    treeHasBagKey "k1" (attributesTransform exLossRoot) = false ∧
    treeHasTextValue exLossF1.value (attributesTransform exLossRoot) = false ∧
    treeHasBagKey "k2" (attributesTransform exLossRoot) = true := by
  have heval : attributesTransform exLossRoot =
      Node.mk "root" (some [Node.mk "heading" (some [exLossTxt])
        (some ⟨⟨some 3, some 16⟩, ⟨some 3, some 22⟩⟩)
        (some ⟨some [("k2", .str "v2")], none⟩) "" [] none false]) none none "" [] none false := by
    simp +decide [attributesTransform, processCodeBlocks, codeData, processCodeBlocksList,
      processThematicBreaksInParent, thematicBreakChildren, thematicBreakChild,
      processStandaloneInParent, standaloneGo, processTrailingInParent, trailingGo,
      processNode, goResolve, promoteTightListAttributes, promoteItemStep,
      exLossRoot, exLossP1, exLossP2, exLossB, exLossF1, exLossF2, exLossTxt,
      getStandaloneAttributesFromParagraph, areDirectlyAdjacent, getPositionGap,
      isInline, INLINE_TYPES, mergeAttributesToNode, mergeAttrsData, mergeAttributes,
      attrsToProps, classInject, classTokensFold, splitOnSpace, splitCharsOnSpace,
      classNameArr, getProp, setProp,
      orphanTextNode, promotableBag]
  refine ⟨heval, ?_, ?_, ?_⟩ <;> rw [heval] <;> decide

mutual

def noTightList : Node → Bool
  | .mk t cs _ _ _ _ _ sp =>
    (!(t == "list" && !sp)) &&
    (match cs with
     | some l => noTightListL l
     | none => true)

def noTightListL : List Node → Bool
  | [] => true
  | c :: rest => noTightList c && noTightListL rest

end

theorem promote_none (t : String) (pos : Option Pos) (d : Option NodeData) (v : String)
    (a : Attrs) (lg : Option String) (sp : Bool) :
    promoteTightListAttributes (Node.mk t none pos d v a lg sp) = Node.mk t none pos d v a lg sp :=
  promoteTightListAttributes.eq_1 t pos d v a lg sp

theorem promote_some (t : String) (l : List Node) (pos : Option Pos) (d : Option NodeData)
    (v : String) (a : Attrs) (lg : Option String) (sp : Bool) :
    promoteTightListAttributes (Node.mk t (some l) pos d v a lg sp) =
      Node.mk t (some ((if (t == "list" && !sp) = true then l.map promoteItemStep else l).map
        promoteTightListAttributes)) pos d v a lg sp := by
  rw [promoteTightListAttributes.eq_2]
  rw [List.attach_map_coe]

theorem promote_dat (n : Node) : (promoteTightListAttributes n).dat = n.dat := by
  cases n with
  | mk t cs pos d v a lg sp =>
    cases cs with
    | none => rw [promote_none]
    | some l =>
      rw [promote_some]
      simp

theorem promote_typ (n : Node) : (promoteTightListAttributes n).typ = n.typ := by
  cases n with
  | mk t cs pos d v a lg sp =>
    cases cs with
    | none => rw [promote_none]
    | some l =>
      rw [promote_some]
      simp

theorem noTightListL_mem (l : List Node) (h : noTightListL l = true) (c : Node) (hc : c ∈ l) :
    noTightList c = true := by
  induction l with
  | nil => cases hc
  | cons x rest ih =>
    rw [noTightListL, Bool.and_eq_true] at h
    rcases List.mem_cons.mp hc with rfl | hc2
    · exact h.1
    · exact ih h.2 hc2

theorem map_eq_self_of_forall (l : List Node) (f : Node → Node) (h : ∀ c ∈ l, f c = c) :
    l.map f = l := by
  induction l with
  | nil => rfl
  | cons x rest ih =>
    rw [List.map_cons, h x (by simp), ih (fun c hc => h c (by simp [hc]))]

theorem promoteFold_spec (gs : List Node) : ∀ (x : Node) (acc : List Node),
    gs.foldl
      (fun (acc : Node × List Node) g =>
        match promotableBag g with
        | some hp => (mergeAttributesToNode acc.1 hp, acc.2 ++ [promoteClearBag g])
        | none => (acc.1, acc.2 ++ [g]))
      (x, acc) =
    (gs.foldl
      (fun n g =>
        match promotableBag g with
        | some hp => mergeAttributesToNode n hp
        | none => n) x,
     acc ++ gs.map (fun g =>
       match promotableBag g with
       | some _ => promoteClearBag g
       | none => g)) := by
  induction gs with
  | nil => intro x acc; simp
  | cons g rest ih =>
    intro x acc
    simp only [List.foldl_cons, List.map_cons]
    cases hb : promotableBag g with
    | some hp => simp only [hb, ih, List.append_assoc, List.singleton_append]
    | none => simp only [hb, ih, List.append_assoc, List.singleton_append]

theorem promoteItemStep_spec (child : Node) (gs : List Node)
    (ht : child.typ = "listItem") (hc : child.children = some gs) :
    promoteItemStep child =
      (gs.foldl
        (fun n g =>
          match promotableBag g with
          | some hp => mergeAttributesToNode n hp
          | none => n) child).setChildren
        (some (gs.map (fun g =>
          match promotableBag g with
          | some _ => promoteClearBag g
          | none => g))) := by
  unfold promoteItemStep
  rw [if_pos (by simp [ht]), hc]
  simp only [promoteFold_spec, List.nil_append]

theorem claim8_helper_noTight_id : ∀ n : Node, noTightList n = true → promoteTightListAttributes n = n := by
  intro n
  induction n using promoteTightListAttributes.induct with
  | case1 t pos d v a lg sp _ =>
    intro _
    rw [promote_none]
  | case2 t pos d v a lg sp l l1 heq ih =>
    intro hn
    rw [noTightList] at hn
    rw [Bool.and_eq_true] at hn
    have hn1 := hn.1
    have hnl : (t == "list" && !sp) = false := by
      cases hb : (t == "list" && !sp)
      · rfl
      · rw [hb] at hn1
        simp at hn1
    rw [promote_some]
    simp only [hnl, Bool.false_eq_true, if_false]
    rw [map_eq_self_of_forall]
    intro c hc
    have hcn : noTightList c = true := noTightListL_mem l hn.2 c hc
    have hmem : c ∈ (if h : (t == "list" && !sp) = true then List.map promoteItemStep l else l) := by
      rw [dif_neg (by simp [hnl])]
      exact hc
    exact ih ⟨c, hmem⟩ hcn

def exParaBag : Node := .mk "paragraph" (some [.mk "text" none none none "hi" [] none false]) none
  (some ⟨some [("className", .arr ["note"])], none⟩) "" [] none false

def exItem : Node := .mk "listItem" (some [exParaBag]) none none "" [] none false

def exLooseList : Node := .mk "list" (some [exItem]) none none "" [] none true

/-- C8: the tight-list post-processor leaves any tree without a non-spread
list unchanged (in particular a spread/loose list keeps every paragraph bag
as it was), changes no node's `data` or `type` anywhere, maps the per-item
step only over the children of non-spread lists, and the per-item step moves
each non-empty paragraph-grandchild bag onto the `listItem` in order
(merging with any bag the item already has) while clearing it on the
paragraph. -/
theorem claim8_tight_list_promotion :
    (∀ n : Node, noTightList n = true → promoteTightListAttributes n = n)
    ∧ (∀ n : Node, (promoteTightListAttributes n).dat = n.dat ∧
        (promoteTightListAttributes n).typ = n.typ)
    ∧ (∀ (t : String) (cs : List Node) (pos : Option Pos) (d : Option NodeData) (v : String)
        (a : Attrs) (lg : Option String) (sp : Bool), (t == "list" && !sp) = false →
        promoteTightListAttributes (Node.mk t (some cs) pos d v a lg sp) =
          Node.mk t (some (cs.map promoteTightListAttributes)) pos d v a lg sp)
    ∧ (∀ (cs : List Node) (pos : Option Pos) (d : Option NodeData) (v : String)
        (a : Attrs) (lg : Option String),
        promoteTightListAttributes (Node.mk "list" (some cs) pos d v a lg false) =
          Node.mk "list" (some ((cs.map promoteItemStep).map promoteTightListAttributes)) pos d v a lg false)
    ∧ (∀ (child : Node) (gs : List Node), child.typ = "listItem" → child.children = some gs →
        promoteItemStep child =
          (gs.foldl
            (fun n g =>
              match promotableBag g with
              | some hp => mergeAttributesToNode n hp
              | none => n) child).setChildren
            (some (gs.map (fun g =>
              match promotableBag g with
              | some _ => promoteClearBag g
              | none => g)))) := by
  refine ⟨claim8_helper_noTight_id, fun n => ⟨promote_dat n, promote_typ n⟩, ?_, ?_, promoteItemStep_spec⟩
  · intro t cs pos d v a lg sp h
    rw [promote_some]
    simp [h]
  · intro cs pos d v a lg
    rw [promote_some]
    simp

theorem claim8_witness :
    promoteTightListAttributes exLooseList = exLooseList ∧
    promoteItemStep exItem =
      (Node.mk "listItem" (some [.mk "paragraph" (some [.mk "text" none none none "hi" [] none false]) none
          (some ⟨none, none⟩) "" [] none false]) none
        (some ⟨some [("className", .arr ["note"])], none⟩) "" [] none false) := by
  constructor
  · exact claim8_tight_list_promotion.1 exLooseList (by decide)
  · have h := claim8_tight_list_promotion.2.2.2.2 exItem [exParaBag] (by decide) (by decide)
    rw [h]
    decide

theorem claim5_witness :
    ("paragraph" : String) ≠ "code" ∧ (classNameArr ([] : Bag)).Nodup ∧
    ∃ extra,
      getProp (mergeAttributes [] [("class", .str "x y x")] (some ("paragraph", none))) "className" =
          some (.arr (classNameArr ([] : Bag) ++ extra)) ∧
      (classNameArr ([] : Bag) ++ extra).Nodup ∧
      (∀ tok ∈ splitOnSpace "x y x", tok ≠ "" → tok ∈ classNameArr ([] : Bag) ++ extra) ∧
      (∀ x ∈ extra, x ∈ splitOnSpace "x y x" ∧ x ≠ "" ∧ x ∉ classNameArr ([] : Bag)) :=
  ⟨by decide, by decide,
    claim5_class_space_tokens.1 [] "x y x" "paragraph" none (by decide) (by decide)⟩

theorem claim7_witness :
    areDirectlyAdjacent
      (Node.mk "paragraph" (some [exFrag0]) (some ⟨⟨some 1, some 0⟩, ⟨some 1, some 9⟩⟩) none "" [] none false)
      (Node.mk "heading" none (some ⟨⟨some 2, some 10⟩, ⟨some 2, some 20⟩⟩) none "" [] none false) = true ∧
    processStandaloneInParent
      (Node.mk "root"
        (some [Node.mk "paragraph" (some [exFrag0]) (some ⟨⟨some 1, some 0⟩, ⟨some 1, some 9⟩⟩) none "" [] none false,
          Node.mk "heading" none (some ⟨⟨some 2, some 10⟩, ⟨some 2, some 20⟩⟩) none "" [] none false])
        none none "" [] none false) =
      Node.mk "root"
        (some [mergeAttributesToNode
          (Node.mk "heading" none (some ⟨⟨some 2, some 10⟩, ⟨some 2, some 20⟩⟩) none "" [] none false)
          (attrsToProps exFrag0.attributes)])
        none none "" [] none false := by
  refine ⟨by decide, ?_⟩
  exact (claim7_standalone_adjacent_attach "root" none none "" [] none false
    (some ⟨⟨some 1, some 0⟩, ⟨some 1, some 9⟩⟩) none "" [] none false exFrag0
    (Node.mk "heading" none (some ⟨⟨some 2, some 10⟩, ⟨some 2, some 20⟩⟩) none "" [] none false)
    (by decide) (by decide) (by decide)).1 (by decide)

theorem fragCount_mk_none (t : String) (pos : Option Pos) (d : Option NodeData) (v : String)
    (a : Attrs) (lg : Option String) (sp : Bool) :
    fragCount (Node.mk t none pos d v a lg sp) = (if t == "mdastAttributes" then 1 else 0) := rfl

theorem fragCount_mk_some (t : String) (l : List Node) (pos : Option Pos) (d : Option NodeData)
    (v : String) (a : Attrs) (lg : Option String) (sp : Bool) :
    fragCount (Node.mk t (some l) pos d v a lg sp) =
      (if t == "mdastAttributes" then 1 else 0) + fragCountList l := rfl

theorem fragCountList_nil : fragCountList [] = 0 := rfl

theorem fragCountList_cons (c : Node) (rest : List Node) :
    fragCountList (c :: rest) = fragCount c + fragCountList rest := rfl

theorem fragCount_setDat (n : Node) (d : Option NodeData) :
    fragCount (n.setDat d) = fragCount n := by
  cases n with
  | mk t cs pos d0 v a lg sp => cases cs <;> rfl

theorem fragCount_mergeAttributesToNode (n : Node) (b : Bag) :
    fragCount (mergeAttributesToNode n b) = fragCount n := by
  rw [mergeAttributesToNode, fragCount_setDat]

theorem fragCount_orphanTextNode (c : Node) : fragCount (orphanTextNode c) = 0 := by
  rw [orphanTextNode, fragCount_mk_none]
  decide

theorem goResolve_nil (pt : String) (plang : Option String) (pd : Option NodeData)
    (suffix : List Node) : goResolve pt plang pd [] suffix = (pd, suffix) := by
  rw [goResolve.eq_def]

theorem goResolve_ruleA (pt : String) (plang : Option String) (pd : Option NodeData)
    (suffix : List Node) (c p : Node) (revRest2 : List Node)
    (hc : (c.typ == "mdastAttributes") = true)
    (hA : (isInline p.typ && getPositionGap p c == 0) = true) :
    goResolve pt plang pd (c :: p :: revRest2) suffix =
      goResolve pt plang pd (mergeAttributesToNode p (attrsToProps c.attributes) :: revRest2) suffix := by
  rw [goResolve.eq_def]
  simp only [hc, hA, if_true]

theorem goResolve_ruleB_cons (pt : String) (plang : Option String) (pd : Option NodeData)
    (suffix : List Node) (c p : Node) (revRest2 : List Node)
    (hc : (c.typ == "mdastAttributes") = true)
    (hA : (isInline p.typ && getPositionGap p c == 0) = false)
    (hB : (suffix.isEmpty && !isInline pt) = true) :
    goResolve pt plang pd (c :: p :: revRest2) suffix =
      goResolve pt plang (mergeAttrsData pd pt plang (attrsToProps c.attributes)) (p :: revRest2) suffix := by
  rw [goResolve.eq_def]
  simp only [hc, hA, hB, if_true, Bool.false_eq_true, if_false]

theorem goResolve_ruleC_cons (pt : String) (plang : Option String) (pd : Option NodeData)
    (suffix : List Node) (c p : Node) (revRest2 : List Node)
    (hc : (c.typ == "mdastAttributes") = true)
    (hA : (isInline p.typ && getPositionGap p c == 0) = false)
    (hB : (suffix.isEmpty && !isInline pt) = false) :
    goResolve pt plang pd (c :: p :: revRest2) suffix =
      goResolve pt plang pd (p :: revRest2) (orphanTextNode c :: suffix) := by
  rw [goResolve.eq_def]
  simp only [hc, hA, hB, Bool.false_eq_true, if_false, if_true]

theorem goResolve_ruleB_nil (pt : String) (plang : Option String) (pd : Option NodeData)
    (suffix : List Node) (c : Node)
    (hc : (c.typ == "mdastAttributes") = true)
    (hB : (suffix.isEmpty && !isInline pt) = true) :
    goResolve pt plang pd [c] suffix =
      goResolve pt plang (mergeAttrsData pd pt plang (attrsToProps c.attributes)) [] suffix := by
  rw [goResolve.eq_def]
  simp only [hc, hB, if_true]

theorem goResolve_ruleC_nil (pt : String) (plang : Option String) (pd : Option NodeData)
    (suffix : List Node) (c : Node)
    (hc : (c.typ == "mdastAttributes") = true)
    (hB : (suffix.isEmpty && !isInline pt) = false) :
    goResolve pt plang pd [c] suffix =
      goResolve pt plang pd [] (orphanTextNode c :: suffix) := by
  rw [goResolve.eq_def]
  simp only [hc, hB, Bool.false_eq_true, if_false, if_true]

theorem goResolve_nonfrag (pt : String) (plang : Option String) (pd : Option NodeData)
    (suffix : List Node) (c : Node) (revRest : List Node)
    (hc : (c.typ == "mdastAttributes") = false) :
    goResolve pt plang pd (c :: revRest) suffix =
      goResolve pt plang pd revRest (processNode c :: suffix) := by
  rw [goResolve.eq_def]
  simp only [hc, Bool.false_eq_true, if_false]

theorem resolver_fragCount :
    ∀ n, fragCount (processNode n) = (if n.typ == "mdastAttributes" then 1 else 0) := by
  apply processNode.induct
    (fun n => fragCount (processNode n) = (if n.typ == "mdastAttributes" then 1 else 0))
    (fun pt plang pd revPre suffix => fragCountList suffix = 0 →
      fragCountList (goResolve pt plang pd revPre suffix).2 = 0)
  · intro t pos d v a lg sp _
    rw [processNode.eq_1, fragCount_mk_none, Node.typ_mk]
  · intro t pos d v a lg sp l _ ih
    rw [processNode.eq_2, fragCount_mk_some, Node.typ_mk]
    rw [ih fragCountList_nil]
    simp
  · intro pt plang pd suffix h
    rw [goResolve_nil]
    exact h
  · intro pt plang pd suffix c hc p revRest2 hA ih h
    rw [goResolve_ruleA pt plang pd suffix c p revRest2 hc hA]
    exact ih h
  · intro pt plang pd suffix c hc p revRest2 hA hB ih h
    rw [goResolve_ruleB_cons pt plang pd suffix c p revRest2 hc (by simpa using hA) hB]
    exact ih h
  · intro pt plang pd suffix c hc p revRest2 hA hB ih h
    rw [goResolve_ruleC_cons pt plang pd suffix c p revRest2 hc (by simpa using hA) (by simpa using hB)]
    apply ih
    rw [fragCountList_cons, fragCount_orphanTextNode, h]
  · intro pt plang pd suffix c hc hB ih h
    rw [goResolve_ruleB_nil pt plang pd suffix c hc hB]
    exact ih h
  · intro pt plang pd suffix c hc hB ih h
    rw [goResolve_ruleC_nil pt plang pd suffix c hc (by simpa using hB)]
    apply ih
    rw [fragCountList_cons, fragCount_orphanTextNode, h]
  · intro pt plang pd suffix c t hc ih1 ih2 h
    rw [goResolve_nonfrag pt plang pd suffix c t (by simpa using hc)]
    apply ih2
    rw [fragCountList_cons, ih1, h]
    simp only [Bool.not_eq_true] at hc
    rw [hc]
    decide

theorem fragCountList_map_eq (l : List Node) (f : Node → Node)
    (h : ∀ c ∈ l, fragCount (f c) = fragCount c) :
    fragCountList (l.map f) = fragCountList l := by
  induction l with
  | nil => rfl
  | cons x rest ih =>
    rw [List.map_cons, fragCountList_cons, fragCountList_cons, h x (by simp),
      ih (fun c hc => h c (by simp [hc]))]

theorem fragCount_promoteClearBag (g : Node) : fragCount (promoteClearBag g) = fragCount g := by
  unfold promoteClearBag
  cases g.dat
  · rfl
  · rw [fragCount_setDat]

theorem typ_foldMerge (gs : List Node) : ∀ x : Node,
    (gs.foldl
      (fun n g =>
        match promotableBag g with
        | some hp => mergeAttributesToNode n hp
        | none => n) x).typ = x.typ := by
  induction gs with
  | nil => intro x; rfl
  | cons g rest ih =>
    intro x
    rw [List.foldl_cons]
    cases promotableBag g
    · exact ih x
    · rw [ih (mergeAttributesToNode x _), mergeAttributesToNode_typ]

theorem fragCount_setChildren_some (x : Node) (l : List Node) :
    fragCount (x.setChildren (some l)) =
      (if x.typ == "mdastAttributes" then 1 else 0) + fragCountList l := by
  cases x
  rfl

theorem fragCount_promoteItemStep (c : Node) : fragCount (promoteItemStep c) = fragCount c := by
  unfold promoteItemStep
  by_cases ht : (c.typ == "listItem") = true
  · rw [if_pos ht]
    cases hc : c.children with
    | none => rfl
    | some gs =>
      simp only [promoteFold_spec, List.nil_append]
      rw [fragCount_setChildren_some, typ_foldMerge]
      rw [fragCountList_map_eq]
      · cases c with
        | mk t cs pos d v a lg sp =>
          simp only [Node.children_mk] at hc
          subst hc
          rw [fragCount_mk_some, Node.typ_mk]
      · intro g _
        cases promotableBag g
        · rfl
        · exact fragCount_promoteClearBag g
  · rw [if_neg ht]

theorem promote_fragCount : ∀ n, fragCount (promoteTightListAttributes n) = fragCount n := by
  intro n
  induction n using promoteTightListAttributes.induct with
  | case1 t pos d v a lg sp _ => rw [promote_none]
  | case2 t pos d v a lg sp l l1 heq ih =>
    rw [promote_some, fragCount_mk_some, fragCount_mk_some]
    have hstep : fragCountList (if (t == "list" && !sp) = true then List.map promoteItemStep l else l) =
        fragCountList l := by
      by_cases hb : (t == "list" && !sp) = true
      · rw [if_pos hb]
        exact fragCountList_map_eq l promoteItemStep (fun c _ => fragCount_promoteItemStep c)
      · rw [if_neg hb]
    rw [fragCountList_map_eq, hstep]
    intro c hc
    have hmem : c ∈ l1 := by
      show c ∈ (if h : (t == "list" && !sp) = true then List.map promoteItemStep l else l)
      by_cases hb : (t == "list" && !sp) = true
      · rw [dif_pos hb]
        rw [if_pos hb] at hc
        exact hc
      · rw [dif_neg hb]
        rw [if_neg hb] at hc
        exact hc
    exact ih ⟨c, hmem⟩

theorem processCodeBlocks_typ (n : Node) : (processCodeBlocks n).typ = n.typ := by
  cases n with
  | mk t cs pos d v a lg sp =>
    rw [processCodeBlocks.eq_def]
    repeat' split
    all_goals simp_all

theorem processThematicBreaksInParent_typ (n : Node) :
    (processThematicBreaksInParent n).typ = n.typ := by
  cases n with
  | mk t cs pos d v a lg sp =>
    simp only [processThematicBreaksInParent]
    cases cs <;> rfl

theorem processStandaloneInParent_typ (n : Node) : (processStandaloneInParent n).typ = n.typ := by
  cases n with
  | mk t cs pos d v a lg sp =>
    cases cs with
    | none => rw [processStandaloneInParent]
    | some l => rw [processStandaloneInParent_some, Node.typ_mk, Node.typ_mk]

theorem processTrailingInParent_none (t : String) (pos : Option Pos) (d : Option NodeData)
    (v : String) (a : Attrs) (lg : Option String) (sp : Bool) :
    processTrailingInParent (Node.mk t none pos d v a lg sp) = Node.mk t none pos d v a lg sp := by
  rw [processTrailingInParent]

theorem processTrailingInParent_nil (t : String) (pos : Option Pos) (d : Option NodeData)
    (v : String) (a : Attrs) (lg : Option String) (sp : Bool) :
    processTrailingInParent (Node.mk t (some []) pos d v a lg sp) =
      Node.mk t (some []) pos d v a lg sp := by
  rw [processTrailingInParent]

theorem processTrailingInParent_cons (t : String) (c0 : Node) (rest : List Node) (pos : Option Pos)
    (d : Option NodeData) (v : String) (a : Attrs) (lg : Option String) (sp : Bool) :
    processTrailingInParent (Node.mk t (some (c0 :: rest)) pos d v a lg sp) =
      Node.mk t (some ((trailingGo c0 rest).1 :: (trailingGo c0 rest).2)) pos d v a lg sp := by
  rw [processTrailingInParent]

theorem processTrailingInParent_typ (n : Node) : (processTrailingInParent n).typ = n.typ := by
  cases n with
  | mk t cs pos d v a lg sp =>
    cases cs with
    | none => rw [processTrailingInParent_none]
    | some l =>
      cases l with
      | nil => rw [processTrailingInParent_nil]
      | cons c0 rest => rw [processTrailingInParent_cons, Node.typ_mk, Node.typ_mk]

theorem transform_fragCount (tree : Node) (h : (tree.typ == "mdastAttributes") = false) :
    fragCount (attributesTransform tree) = 0 := by
  unfold attributesTransform
  rw [promote_fragCount, resolver_fragCount]
  rw [processTrailingInParent_typ, processStandaloneInParent_typ,
    processThematicBreaksInParent_typ, processCodeBlocks_typ]
  rw [h]
  rfl

def exC1Root : Node :=
  Node.mk "root"
    (some [Node.mk "paragraph" (some [exFrag0]) none none "" [] none false])
    none none "" [] none false

/-- C1: running the plugin's transform on a root tree leaves no
`mdastAttributes` node anywhere in the result: every attribute fragment is
consumed (merged or dropped) by the passes. -/
theorem claim1_no_surviving_fragments (tree : Node) (h : tree.typ = "root") :
    fragCount (attributesTransform tree) = 0 := by
  apply transform_fragCount
  rw [h]
  rfl

theorem claim1_witness : exC1Root.typ = "root" ∧ fragCount (attributesTransform exC1Root) = 0 :=
  ⟨rfl, claim1_no_surviving_fragments exC1Root rfl⟩

/-!
Idempotence infrastructure.  The second run of each pass is the identity
because the first run leaves nothing for it to do.  Three cleanliness
predicates capture the residual state: `codeClean` (no code node reachable
by pass 1 still carries a `mdastAttributes` side channel), `tbClean` (no
thematic break reachable as a child still carries children), `promoClean`
(no tight-list item still has a promotable paragraph grandchild); the
absence of fragments is `fragCount = 0`.
-/

def dClean : Option NodeData → Bool
  | some dd => dd.mdastAttributes.isNone
  | none => true

mutual

def codeClean : Node → Bool
  | .mk t cs _ d _ _ _ _ =>
    if t == "code" then dClean d
    else
      match cs with
      | some l => codeCleanL l
      | none => true

def codeCleanL : List Node → Bool
  | [] => true
  | c :: rest => codeClean c && codeCleanL rest

end

mutual

def tbClean : Node → Bool
  | .mk _ cs _ _ _ _ _ _ =>
    match cs with
    | some l => tbCleanL l
    | none => true

def tbCleanL : List Node → Bool
  | [] => true
  | c :: rest =>
    (!(c.typ == "thematicBreak" && !(c.children.getD []).isEmpty)) && tbClean c && tbCleanL rest

end

def itemClean (c : Node) : Bool :=
  if c.typ == "listItem" then
    match c.children with
    | some gs => gs.all (fun g => (promotableBag g).isNone)
    | none => true
  else true

mutual

def promoClean : Node → Bool
  | .mk t cs _ _ _ _ _ sp =>
    match cs with
    | none => true
    | some l => (if t == "list" && !sp then l.all itemClean else true) && promoCleanL l

def promoCleanL : List Node → Bool
  | [] => true
  | c :: rest => promoClean c && promoCleanL rest

end

theorem codeClean_mk (t : String) (cs : Option (List Node)) (pos : Option Pos)
    (d : Option NodeData) (v : String) (a : Attrs) (lg : Option String) (sp : Bool) :
    codeClean (Node.mk t cs pos d v a lg sp) =
      (if t == "code" then dClean d
       else
         match cs with
         | some l => codeCleanL l
         | none => true) := by
  rw [codeClean.eq_def]

theorem tbClean_mk (t : String) (cs : Option (List Node)) (pos : Option Pos)
    (d : Option NodeData) (v : String) (a : Attrs) (lg : Option String) (sp : Bool) :
    tbClean (Node.mk t cs pos d v a lg sp) =
      (match cs with
       | some l => tbCleanL l
       | none => true) := by
  rw [tbClean.eq_def]

theorem promoClean_mk (t : String) (cs : Option (List Node)) (pos : Option Pos)
    (d : Option NodeData) (v : String) (a : Attrs) (lg : Option String) (sp : Bool) :
    promoClean (Node.mk t cs pos d v a lg sp) =
      (match cs with
       | none => true
       | some l => (if t == "list" && !sp then l.all itemClean else true) && promoCleanL l) := by
  rw [promoClean.eq_def]

theorem dClean_mergeAttrsData (pd : Option NodeData) (t : String) (lg : Option String) (b : Bag)
    (h : dClean pd = true) : dClean (mergeAttrsData pd t lg b) = true := by
  cases pd with
  | none => rfl
  | some dd =>
    cases dd with
    | mk hp ma =>
      cases ma with
      | none => rfl
      | some x => cases h

theorem codeClean_merge (n : Node) (b : Bag) (h : codeClean n = true) :
    codeClean (mergeAttributesToNode n b) = true := by
  cases n with
  | mk t cs pos d v a lg sp =>
    rw [mergeAttributesToNode, Node.setDat_mk]
    rw [codeClean_mk] at h ⊢
    by_cases ht : (t == "code") = true
    · rw [if_pos ht] at h ⊢
      exact dClean_mergeAttrsData d _ _ _ h
    · rw [if_neg ht] at h ⊢
      exact h

theorem tbClean_merge (n : Node) (b : Bag) :
    tbClean (mergeAttributesToNode n b) = tbClean n := by
  cases n with
  | mk t cs pos d v a lg sp =>
    rw [mergeAttributesToNode, Node.setDat_mk, tbClean_mk, tbClean_mk]

theorem processCodeBlocks_mk (t : String) (cs : Option (List Node)) (pos : Option Pos)
    (d : Option NodeData) (v : String) (a : Attrs) (lg : Option String) (sp : Bool) :
    processCodeBlocks (Node.mk t cs pos d v a lg sp) =
      (if t == "code" then Node.mk t cs pos (codeData t lg d) v a lg sp
       else
         match cs with
         | some l => Node.mk t (some (processCodeBlocksList l)) pos d v a lg sp
         | none => Node.mk t none pos d v a lg sp) := by
  rw [processCodeBlocks.eq_def]

theorem processCodeBlocksList_nil : processCodeBlocksList [] = [] := by
  rw [processCodeBlocksList.eq_def]

theorem processCodeBlocksList_cons (c : Node) (rest : List Node) :
    processCodeBlocksList (c :: rest) = processCodeBlocks c :: processCodeBlocksList rest := by
  rw [processCodeBlocksList.eq_def]

theorem codeCleanL_nil : codeCleanL [] = true := by
  rw [codeCleanL.eq_def]

theorem codeCleanL_cons (c : Node) (rest : List Node) :
    codeCleanL (c :: rest) = (codeClean c && codeCleanL rest) := by
  rw [codeCleanL.eq_def]

theorem dClean_codeData (t : String) (lg : Option String) (d : Option NodeData) :
    dClean (codeData t lg d) = true := by
  cases d with
  | none => rfl
  | some dd =>
    cases dd with
    | mk hp ma => cases ma <;> rfl

theorem codeData_id (t : String) (lg : Option String) (d : Option NodeData)
    (h : dClean d = true) : codeData t lg d = d := by
  cases d with
  | none => rfl
  | some dd =>
    cases dd with
    | mk hp ma =>
      cases ma with
      | none => rfl
      | some x => cases h

theorem codeClean_processCodeBlocks : ∀ n : Node, codeClean (processCodeBlocks n) = true := by
  intro n
  apply processCodeBlocks.induct (fun n => codeClean (processCodeBlocks n) = true)
    (fun l => codeCleanL (processCodeBlocksList l) = true)
  · intro t cs pos d v a lg sp h
    rw [processCodeBlocks_mk, if_pos h, codeClean_mk, if_pos h]
    exact dClean_codeData t lg d
  · intro t pos d v a lg sp h l ih
    rw [processCodeBlocks_mk, if_neg h, codeClean_mk, if_neg h]
    exact ih
  · intro t pos d v a lg sp h
    rw [processCodeBlocks_mk, if_neg h, codeClean_mk, if_neg h]
  · rw [processCodeBlocksList_nil, codeCleanL_nil]
  · intro c rest ih1 ih2
    rw [processCodeBlocksList_cons, codeCleanL_cons, ih1, ih2]
    rfl

theorem processCodeBlocks_id : ∀ n : Node, codeClean n = true → processCodeBlocks n = n := by
  intro n
  apply processCodeBlocks.induct (fun n => codeClean n = true → processCodeBlocks n = n)
    (fun l => codeCleanL l = true → processCodeBlocksList l = l)
  · intro t cs pos d v a lg sp h hcl
    rw [codeClean_mk, if_pos h] at hcl
    rw [processCodeBlocks_mk, if_pos h, codeData_id t lg d hcl]
  · intro t pos d v a lg sp h l ih hcl
    rw [codeClean_mk, if_neg h] at hcl
    have hcl2 : codeCleanL l = true := hcl
    rw [processCodeBlocks_mk, if_neg h]
    show Node.mk t (some (processCodeBlocksList l)) pos d v a lg sp = Node.mk t (some l) pos d v a lg sp
    rw [ih hcl2]
  · intro t pos d v a lg sp h _
    rw [processCodeBlocks_mk, if_neg h]
  · intro _
    rw [processCodeBlocksList_nil]
  · intro c rest ih1 ih2 hcl
    rw [codeCleanL_cons, Bool.and_eq_true] at hcl
    rw [processCodeBlocksList_cons, ih1 hcl.1, ih2 hcl.2]

theorem setChildren_children (x : Node) (c2 : Option (List Node)) :
    (x.setChildren c2).children = c2 := by
  cases x
  rfl

theorem thematicBreakChild_some (t : String) (l : List Node) (pos : Option Pos)
    (d : Option NodeData) (v : String) (a : Attrs) (lg : Option String) (sp : Bool) :
    thematicBreakChild (Node.mk t (some l) pos d v a lg sp) =
      (if (t == "thematicBreak" && !l.isEmpty) = true then
        (l.foldl
          (fun acc g =>
            if g.typ == "mdastAttributes" then
              mergeAttributesToNode acc (attrsToProps g.attributes)
            else acc)
          (Node.mk t (some l) pos d v a lg sp)).setChildren none
      else Node.mk t (some (thematicBreakChildren l)) pos d v a lg sp) := by
  rw [thematicBreakChild.eq_def]

theorem thematicBreakChild_none (t : String) (pos : Option Pos)
    (d : Option NodeData) (v : String) (a : Attrs) (lg : Option String) (sp : Bool) :
    thematicBreakChild (Node.mk t none pos d v a lg sp) = Node.mk t none pos d v a lg sp := by
  rw [thematicBreakChild.eq_def]

theorem thematicBreakChildren_nil : thematicBreakChildren [] = [] := by
  rw [thematicBreakChildren.eq_def]

theorem thematicBreakChildren_cons (c : Node) (rest : List Node) :
    thematicBreakChildren (c :: rest) = thematicBreakChild c :: thematicBreakChildren rest := by
  rw [thematicBreakChildren.eq_def]

theorem processThematicBreaksInParent_some (t : String) (l : List Node) (pos : Option Pos)
    (d : Option NodeData) (v : String) (a : Attrs) (lg : Option String) (sp : Bool) :
    processThematicBreaksInParent (Node.mk t (some l) pos d v a lg sp) =
      Node.mk t (some (thematicBreakChildren l)) pos d v a lg sp := by
  rw [processThematicBreaksInParent.eq_def]

theorem processThematicBreaksInParent_none (t : String) (pos : Option Pos)
    (d : Option NodeData) (v : String) (a : Attrs) (lg : Option String) (sp : Bool) :
    processThematicBreaksInParent (Node.mk t none pos d v a lg sp) =
      Node.mk t none pos d v a lg sp := by
  rw [processThematicBreaksInParent.eq_def]

def tbChildClean (c : Node) : Bool :=
  (!(c.typ == "thematicBreak" && !(c.children.getD []).isEmpty)) && tbClean c

theorem tbCleanL_nil : tbCleanL [] = true := by
  rw [tbCleanL.eq_def]

theorem tbCleanL_cons (c : Node) (rest : List Node) :
    tbCleanL (c :: rest) = (tbChildClean c && tbCleanL rest) := by
  rw [tbCleanL.eq_def, tbChildClean]

theorem tbClean_children_none (c : Node) (h : c.children = none) : tbClean c = true := by
  cases c with
  | mk t cs pos d v a lg sp =>
    rw [Node.children_mk] at h
    subst h
    rw [tbClean_mk]

theorem tbChildClean_none (c : Node) (h : c.children = none) : tbChildClean c = true := by
  rw [tbChildClean, h, tbClean_children_none c h]
  simp

theorem typ_tbFold (l : List Node) : ∀ x : Node,
    (l.foldl
      (fun acc g =>
        if g.typ == "mdastAttributes" then
          mergeAttributesToNode acc (attrsToProps g.attributes)
        else acc) x).typ = x.typ := by
  induction l with
  | nil => intro x; rfl
  | cons g rest ih =>
    intro x
    rw [List.foldl_cons]
    by_cases hg : (g.typ == "mdastAttributes") = true
    · rw [if_pos hg, ih, mergeAttributesToNode_typ]
    · rw [if_neg hg, ih]

theorem isEmpty_thematicBreakChildren (l : List Node) :
    (thematicBreakChildren l).isEmpty = l.isEmpty := by
  cases l with
  | nil => rw [thematicBreakChildren_nil]
  | cons c rest => rw [thematicBreakChildren_cons, List.isEmpty_cons, List.isEmpty_cons]

theorem tbChildClean_thematicBreakChild : ∀ c : Node, tbChildClean (thematicBreakChild c) = true := by
  intro c
  apply thematicBreakChild.induct (fun c => tbChildClean (thematicBreakChild c) = true)
    (fun l => tbCleanL (thematicBreakChildren l) = true)
  · intro t pos d v a lg sp l h
    rw [thematicBreakChild_some, if_pos h]
    exact tbChildClean_none _ (setChildren_children _ none)
  · intro t pos d v a lg sp l h ih
    rw [thematicBreakChild_some, if_neg h]
    rw [tbChildClean, Node.typ_mk, Node.children_mk, Option.getD_some, isEmpty_thematicBreakChildren]
    rw [tbClean_mk]
    have hguard : (t == "thematicBreak" && !l.isEmpty) = false := by
      cases hb : (t == "thematicBreak" && !l.isEmpty)
      · rfl
      · exact absurd hb h
    rw [hguard]
    show (true && tbCleanL (thematicBreakChildren l)) = true
    rw [ih]
    rfl
  · intro t pos d v a lg sp
    rw [thematicBreakChild_none]
    exact tbChildClean_none _ (Node.children_mk t none pos d v a lg sp)
  · rw [thematicBreakChildren_nil, tbCleanL_nil]
  · intro c rest ih1 ih2
    rw [thematicBreakChildren_cons, tbCleanL_cons, ih1, ih2]
    rfl

theorem tbClean_processThematicBreaks : ∀ n : Node, tbClean (processThematicBreaksInParent n) = true := by
  intro n
  cases n with
  | mk t cs pos d v a lg sp =>
    cases cs with
    | none =>
      rw [processThematicBreaksInParent_none, tbClean_mk]
    | some l =>
      rw [processThematicBreaksInParent_some, tbClean_mk]
      show tbCleanL (thematicBreakChildren l) = true
      induction l with
      | nil => rw [thematicBreakChildren_nil, tbCleanL_nil]
      | cons c rest ih =>
        rw [thematicBreakChildren_cons, tbCleanL_cons, tbChildClean_thematicBreakChild c, ih]
        rfl

theorem thematicBreakChild_id : ∀ c : Node, tbChildClean c = true → thematicBreakChild c = c := by
  intro c
  apply thematicBreakChild.induct (fun c => tbChildClean c = true → thematicBreakChild c = c)
    (fun l => tbCleanL l = true → thematicBreakChildren l = l)
  · intro t pos d v a lg sp l h hcl
    rw [tbChildClean, Node.typ_mk, Node.children_mk, Option.getD_some, h] at hcl
    cases hcl
  · intro t pos d v a lg sp l h ih hcl
    rw [tbChildClean, Node.typ_mk] at hcl
    rw [Bool.and_eq_true] at hcl
    have hcl2 : tbCleanL l = true := by
      have := hcl.2
      rw [tbClean_mk] at this
      exact this
    rw [thematicBreakChild_some, if_neg h, ih hcl2]
  · intro t pos d v a lg sp _
    rw [thematicBreakChild_none]
  · intro _
    rw [thematicBreakChildren_nil]
  · intro c rest ih1 ih2 hcl
    rw [tbCleanL_cons, Bool.and_eq_true] at hcl
    rw [thematicBreakChildren_cons, ih1 hcl.1, ih2 hcl.2]

theorem thematicBreakChildren_id (l : List Node) (h : tbCleanL l = true) :
    thematicBreakChildren l = l := by
  induction l with
  | nil => rw [thematicBreakChildren_nil]
  | cons c rest ih =>
    rw [tbCleanL_cons, Bool.and_eq_true] at h
    rw [thematicBreakChildren_cons, thematicBreakChild_id c h.1, ih h.2]

theorem processThematicBreaks_id (n : Node) (h : tbClean n = true) :
    processThematicBreaksInParent n = n := by
  cases n with
  | mk t cs pos d v a lg sp =>
    cases cs with
    | none => rw [processThematicBreaksInParent_none]
    | some l =>
      rw [tbClean_mk] at h
      have h2 : tbCleanL l = true := h
      rw [processThematicBreaksInParent_some, thematicBreakChildren_id l h2]

theorem codeClean_thematicBreakChild : ∀ c : Node,
    codeClean c = true → codeClean (thematicBreakChild c) = true := by
  intro c
  apply thematicBreakChild.induct (fun c => codeClean c = true → codeClean (thematicBreakChild c) = true)
    (fun l => codeCleanL l = true → codeCleanL (thematicBreakChildren l) = true)
  · intro t pos d v a lg sp l h _
    have htb : t = "thematicBreak" := by
      rw [Bool.and_eq_true] at h
      exact eq_of_beq h.1
    have htyp := typ_tbFold l (Node.mk t (some l) pos d v a lg sp)
    rw [Node.typ_mk] at htyp
    rw [thematicBreakChild_some, if_pos h]
    cases hf : l.foldl
        (fun acc g =>
          if g.typ == "mdastAttributes" then
            mergeAttributesToNode acc (attrsToProps g.attributes)
          else acc)
        (Node.mk t (some l) pos d v a lg sp) with
    | mk t2 cs2 pos2 d2 v2 a2 lg2 sp2 =>
      rw [hf, Node.typ_mk] at htyp
      rw [Node.setChildren_mk, codeClean_mk, if_neg (by rw [htyp, htb]; decide)]
  · intro t pos d v a lg sp l h ih hcl
    rw [thematicBreakChild_some, if_neg h]
    rw [codeClean_mk] at hcl ⊢
    by_cases hcode : (t == "code") = true
    · rw [if_pos hcode] at hcl ⊢
      exact hcl
    · rw [if_neg hcode] at hcl ⊢
      have hcl2 : codeCleanL l = true := hcl
      show codeCleanL (thematicBreakChildren l) = true
      exact ih hcl2
  · intro t pos d v a lg sp hcl
    rw [thematicBreakChild_none]
    exact hcl
  · intro _
    rw [thematicBreakChildren_nil, codeCleanL_nil]
  · intro c rest ih1 ih2 hcl
    rw [codeCleanL_cons, Bool.and_eq_true] at hcl
    rw [thematicBreakChildren_cons, codeCleanL_cons, ih1 hcl.1, ih2 hcl.2]
    rfl

theorem codeClean_processThematicBreaks (n : Node) (h : codeClean n = true) :
    codeClean (processThematicBreaksInParent n) = true := by
  cases n with
  | mk t cs pos d v a lg sp =>
    cases cs with
    | none => rw [processThematicBreaksInParent_none]; exact h
    | some l =>
      rw [processThematicBreaksInParent_some]
      rw [codeClean_mk] at h ⊢
      by_cases hcode : (t == "code") = true
      · rw [if_pos hcode] at h ⊢
        exact h
      · rw [if_neg hcode] at h ⊢
        have h2 : codeCleanL l = true := h
        show codeCleanL (thematicBreakChildren l) = true
        induction l with
        | nil => rw [thematicBreakChildren_nil, codeCleanL_nil]
        | cons c rest ih =>
          rw [codeCleanL_cons, Bool.and_eq_true] at h2
          rw [thematicBreakChildren_cons, codeCleanL_cons,
            codeClean_thematicBreakChild c h2.1, ih h2.2 h2.2]
          rfl

theorem fragCount_typ_ne (c : Node) (h : fragCount c = 0) : (c.typ == "mdastAttributes") = false := by
  cases c with
  | mk t cs pos d v a lg sp =>
    rw [Node.typ_mk]
    cases cs with
    | none =>
      rw [fragCount_mk_none] at h
      cases hb : (t == "mdastAttributes")
      · rfl
      · rw [hb] at h; simp at h
    | some l =>
      rw [fragCount_mk_some] at h
      cases hb : (t == "mdastAttributes")
      · rfl
      · rw [hb] at h; simp at h

theorem getStandalone_none_fragfree (c : Node) (h : fragCount c = 0) :
    getStandaloneAttributesFromParagraph c = none := by
  unfold getStandaloneAttributesFromParagraph
  cases c with
  | mk t cs pos d v a lg sp =>
    by_cases ht : ((Node.mk t cs pos d v a lg sp).typ != "paragraph") = true
    · rw [if_pos ht]
    · rw [if_neg ht, Node.children_mk]
      cases cs with
      | none => rfl
      | some l =>
        match l with
        | [] => rfl
        | [child] =>
          rw [fragCount_mk_some, fragCountList_cons, fragCountList_nil] at h
          have hc : fragCount child = 0 := by omega
          have := fragCount_typ_ne child hc
          simp [this]
        | c1 :: c2 :: rest => rfl

theorem standaloneGo_id : ∀ l : List Node, fragCountList l = 0 → standaloneGo l = l := by
  intro l
  apply standaloneGo.induct (fun n => fragCount n = 0 → processStandaloneInParent n = n)
    (fun l => fragCountList l = 0 → standaloneGo l = l)
  · intro t pos d v a lg sp _ _
    exact processStandaloneInParent_no_children _ rfl
  · intro t pos d v a lg sp l _ ih h
    rw [fragCount_mk_some] at h
    rw [processStandaloneInParent_some, ih (by omega)]
  · intro _
    rw [standaloneGo.eq_1]
  · intro c frag next rest2 hs _ _ h
    rw [fragCountList_cons] at h
    rw [getStandalone_none_fragfree c (by omega)] at hs
    cases hs
  · intro c frag next rest2 hs _ _ _ h
    rw [fragCountList_cons] at h
    rw [getStandalone_none_fragfree c (by omega)] at hs
    cases hs
  · intro c rest _ ih1 ih2 h
    rw [fragCountList_cons] at h
    rw [standaloneGo_skip_none c rest (getStandalone_none_fragfree c (by omega))]
    rw [ih1 (by omega), ih2 (by omega)]

theorem processStandalone_id (n : Node) (h : fragCountList (n.children.getD []) = 0) :
    processStandaloneInParent n = n := by
  cases n with
  | mk t cs pos d v a lg sp =>
    cases cs with
    | none => exact processStandaloneInParent_no_children _ rfl
    | some l =>
      rw [Node.children_mk, Option.getD_some] at h
      rw [processStandaloneInParent_some, standaloneGo_id l h]

theorem codeClean_standaloneGo : ∀ l : List Node,
    codeCleanL l = true → codeCleanL (standaloneGo l) = true := by
  intro l
  apply standaloneGo.induct (fun n => codeClean n = true → codeClean (processStandaloneInParent n) = true)
    (fun l => codeCleanL l = true → codeCleanL (standaloneGo l) = true)
  · intro t pos d v a lg sp _ h
    rw [processStandaloneInParent_no_children (Node.mk t none pos d v a lg sp) rfl]
    exact h
  · intro t pos d v a lg sp l _ ih h
    rw [processStandaloneInParent_some]
    rw [codeClean_mk] at h ⊢
    by_cases hcode : (t == "code") = true
    · rw [if_pos hcode] at h ⊢
      exact h
    · rw [if_neg hcode] at h ⊢
      have h2 : codeCleanL l = true := h
      show codeCleanL (standaloneGo l) = true
      exact ih h2
  · intro _
    rw [standaloneGo.eq_1, codeCleanL_nil]
  · intro c frag next rest2 hs hadj ih h
    rw [standaloneGo_merge c next rest2 frag hs hadj]
    rw [codeCleanL_cons, Bool.and_eq_true] at h
    have h2 := h.2
    rw [codeCleanL_cons, Bool.and_eq_true] at h2
    apply ih
    rw [codeCleanL_cons, codeClean_merge next _ h2.1, h2.2]
    rfl
  · intro c frag next rest2 hs hadj ih1 ih2 h
    rw [standaloneGo_skip_far c next rest2 frag hs (by simpa using hadj)]
    rw [codeCleanL_cons, Bool.and_eq_true] at h
    rw [codeCleanL_cons, ih1 h.1, ih2 h.2]
    rfl
  · intro c rest hno ih1 ih2 h
    rw [codeCleanL_cons, Bool.and_eq_true] at h
    cases rest with
    | nil =>
      rw [standaloneGo_last, codeCleanL_cons, ih1 h.1, codeCleanL_nil]
      rfl
    | cons next rest2 =>
      have hs : getStandaloneAttributesFromParagraph c = none := by
        cases hgs : getStandaloneAttributesFromParagraph c with
        | none => rfl
        | some frag => exact absurd (hno frag next rest2 hgs rfl) not_false
      rw [standaloneGo_skip_none c _ hs, codeCleanL_cons, ih1 h.1, ih2 h.2]
      rfl

theorem codeClean_processStandalone (n : Node) (h : codeClean n = true) :
    codeClean (processStandaloneInParent n) = true := by
  cases n with
  | mk t cs pos d v a lg sp =>
    cases cs with
    | none =>
      rw [processStandaloneInParent_no_children (Node.mk t none pos d v a lg sp) rfl]
      exact h
    | some l =>
      rw [processStandaloneInParent_some]
      rw [codeClean_mk] at h ⊢
      by_cases hcode : (t == "code") = true
      · rw [if_pos hcode] at h ⊢
        exact h
      · rw [if_neg hcode] at h ⊢
        have h2 : codeCleanL l = true := h
        show codeCleanL (standaloneGo l) = true
        exact codeClean_standaloneGo l h2

theorem tbChildClean_merge (next : Node) (b : Bag) :
    tbChildClean (mergeAttributesToNode next b) = tbChildClean next := by
  rw [tbChildClean, tbChildClean, mergeAttributesToNode_typ, mergeAttributesToNode_children,
    tbClean_merge]

theorem tbChildClean_psp (c : Node) (hc : tbChildClean c = true)
    (hclean : tbClean (processStandaloneInParent c) = true) :
    tbChildClean (processStandaloneInParent c) = true := by
  cases c with
  | mk t cs pos d v a lg sp =>
    cases cs with
    | none =>
      rw [processStandaloneInParent_no_children (Node.mk t none pos d v a lg sp) rfl] at hclean ⊢
      exact hc
    | some l =>
      rw [processStandaloneInParent_some] at hclean ⊢
      rw [tbChildClean, Bool.and_eq_true]
      refine ⟨?_, hclean⟩
      rw [tbChildClean, Bool.and_eq_true, Node.typ_mk, Node.children_mk, Option.getD_some] at hc
      rw [Node.typ_mk, Node.children_mk, Option.getD_some]
      by_cases htb : (t == "thematicBreak") = true
      · have hemp : l.isEmpty = true := by
          have h1 := hc.1
          rw [htb] at h1
          cases he : l.isEmpty
          · rw [he] at h1
            simp at h1
          · rfl
        have : l = [] := List.isEmpty_iff.mp hemp
        subst this
        rw [standaloneGo.eq_1]
        simp
      · simp [htb]

theorem tbClean_standaloneGo : ∀ l : List Node,
    tbCleanL l = true → tbCleanL (standaloneGo l) = true := by
  intro l
  apply standaloneGo.induct (fun n => tbClean n = true → tbClean (processStandaloneInParent n) = true)
    (fun l => tbCleanL l = true → tbCleanL (standaloneGo l) = true)
  · intro t pos d v a lg sp _ h
    rw [processStandaloneInParent_no_children (Node.mk t none pos d v a lg sp) rfl]
    exact h
  · intro t pos d v a lg sp l _ ih h
    rw [processStandaloneInParent_some]
    rw [tbClean_mk] at h ⊢
    have h2 : tbCleanL l = true := h
    show tbCleanL (standaloneGo l) = true
    exact ih h2
  · intro h
    rw [standaloneGo.eq_1]
    exact h
  · intro c frag next rest2 hs hadj ih h
    rw [standaloneGo_merge c next rest2 frag hs hadj]
    rw [tbCleanL_cons, Bool.and_eq_true] at h
    have h2 := h.2
    rw [tbCleanL_cons, Bool.and_eq_true] at h2
    apply ih
    rw [tbCleanL_cons, tbChildClean_merge, h2.1, h2.2]
    rfl
  · intro c frag next rest2 hs hadj ih1 ih2 h
    rw [standaloneGo_skip_far c next rest2 frag hs (by simpa using hadj)]
    rw [tbCleanL_cons, Bool.and_eq_true] at h
    have hcc := h.1
    have htc : tbClean c = true := by
      rw [tbChildClean, Bool.and_eq_true] at hcc
      exact hcc.2
    rw [tbCleanL_cons, tbChildClean_psp c hcc (ih1 htc), ih2 h.2]
    rfl
  · intro c rest hno ih1 ih2 h
    rw [tbCleanL_cons, Bool.and_eq_true] at h
    have hcc := h.1
    have htc : tbClean c = true := by
      rw [tbChildClean, Bool.and_eq_true] at hcc
      exact hcc.2
    cases rest with
    | nil =>
      rw [standaloneGo_last, tbCleanL_cons, tbChildClean_psp c hcc (ih1 htc), tbCleanL_nil]
      rfl
    | cons next rest2 =>
      have hs : getStandaloneAttributesFromParagraph c = none := by
        cases hgs : getStandaloneAttributesFromParagraph c with
        | none => rfl
        | some frag => exact absurd (hno frag next rest2 hgs rfl) not_false
      rw [standaloneGo_skip_none c _ hs, tbCleanL_cons, tbChildClean_psp c hcc (ih1 htc), ih2 h.2]
      rfl

theorem tbClean_processStandalone (n : Node) (h : tbClean n = true) :
    tbClean (processStandaloneInParent n) = true := by
  cases n with
  | mk t cs pos d v a lg sp =>
    cases cs with
    | none =>
      rw [processStandaloneInParent_no_children (Node.mk t none pos d v a lg sp) rfl]
      exact h
    | some l =>
      rw [processStandaloneInParent_some]
      rw [tbClean_mk] at h ⊢
      have h2 : tbCleanL l = true := h
      show tbCleanL (standaloneGo l) = true
      exact tbClean_standaloneGo l h2
theorem trailingGo_nil (prev : Node) : trailingGo prev [] = (prev, []) := by
  rw [trailingGo.eq_def]

theorem trailingGo_cons_merge (prev c : Node) (rest : List Node) (frag : Node)
    (hcond : (if prev.typ == "thematicBreak" then getStandaloneAttributesFromParagraph c
      else none) = some frag)
    (hadj : areDirectlyAdjacent prev c = true) :
    trailingGo prev (c :: rest) =
      trailingGo (mergeAttributesToNode prev (attrsToProps frag.attributes)) rest := by
  rw [trailingGo.eq_def]
  simp only [hcond, hadj, if_true]

theorem trailingGo_cons_far (prev c : Node) (rest : List Node) (frag : Node)
    (hcond : (if prev.typ == "thematicBreak" then getStandaloneAttributesFromParagraph c
      else none) = some frag)
    (hadj : areDirectlyAdjacent prev c = false) :
    trailingGo prev (c :: rest) =
      (prev, (trailingGo (processTrailingInParent c) rest).1 ::
        (trailingGo (processTrailingInParent c) rest).2) := by
  rw [trailingGo.eq_def]
  simp only [hcond, hadj, Bool.false_eq_true, if_false]

theorem trailingGo_cons_none (prev c : Node) (rest : List Node)
    (hcond : (if prev.typ == "thematicBreak" then getStandaloneAttributesFromParagraph c
      else none) = none) :
    trailingGo prev (c :: rest) =
      (prev, (trailingGo (processTrailingInParent c) rest).1 ::
        (trailingGo (processTrailingInParent c) rest).2) := by
  rw [trailingGo.eq_def]
  simp only [hcond]

theorem dite_tb_to_ite (prev c : Node) (r : Option Node)
    (h : (if h : (prev.typ == "thematicBreak") = true then getStandaloneAttributesFromParagraph c
      else none) = r) :
    (if (prev.typ == "thematicBreak") = true then getStandaloneAttributesFromParagraph c
      else none) = r := by
  by_cases hp : (prev.typ == "thematicBreak") = true
  · rw [dif_pos hp] at h
    rw [if_pos hp]
    exact h
  · rw [dif_neg hp] at h
    rw [if_neg hp]
    exact h

theorem gs_some_fragfree_absurd (prev c : Node) (frag : Node) (hc : fragCount c = 0)
    (hcond : (if h : (prev.typ == "thematicBreak") = true then
      getStandaloneAttributesFromParagraph c else none) = some frag) : False := by
  by_cases hp : (prev.typ == "thematicBreak") = true
  · rw [dif_pos hp, getStandalone_none_fragfree c hc] at hcond
    cases hcond
  · rw [dif_neg hp] at hcond
    cases hcond

theorem trailingGo_id : ∀ (prev : Node) (l : List Node),
    fragCountList l = 0 → trailingGo prev l = (prev, l) := by
  intro prev l
  refine trailingGo.induct (fun n => fragCount n = 0 → processTrailingInParent n = n)
    (fun prev l => fragCountList l = 0 → trailingGo prev l = (prev, l)) ?_ ?_ ?_ ?_ ?_ ?_ ?_ prev l
  · intro t pos d v a lg sp _ _
    rw [processTrailingInParent_none]
  · intro t pos d v a lg sp _ _
    rw [processTrailingInParent_nil]
  · intro t pos d v a lg sp c0 rest _ ih h
    rw [fragCount_mk_some, fragCountList_cons] at h
    rw [processTrailingInParent_cons, ih (by omega)]
  · intro prev _
    rw [trailingGo_nil]
  · intro prev c rest frag hcond hadj _ h
    rw [fragCountList_cons] at h
    exact absurd (gs_some_fragfree_absurd prev c frag (by omega) hcond) not_false
  · intro prev c rest frag hcond hadj c2 ih1 ih2 h
    rw [fragCountList_cons] at h
    exact absurd (gs_some_fragfree_absurd prev c frag (by omega) hcond) not_false
  · intro prev c rest hcond c2 ih1 ih2 h
    rw [fragCountList_cons] at h
    have h1 : processTrailingInParent c = c := ih1 (by omega)
    have h2 : trailingGo (processTrailingInParent c) rest = (processTrailingInParent c, rest) :=
      ih2 (by omega)
    rw [trailingGo_cons_none prev c rest (dite_tb_to_ite prev c none hcond), h2, h1]

theorem processTrailing_id (n : Node) (h : fragCountList (n.children.getD []) = 0) :
    processTrailingInParent n = n := by
  cases n with
  | mk t cs pos d v a lg sp =>
    cases cs with
    | none => rw [processTrailingInParent_none]
    | some l =>
      rw [Node.children_mk, Option.getD_some] at h
      cases l with
      | nil => rw [processTrailingInParent_nil]
      | cons c0 rest =>
        rw [fragCountList_cons] at h
        rw [processTrailingInParent_cons, trailingGo_id c0 rest (by omega)]

theorem codeClean_trailingGo : ∀ (prev : Node) (l : List Node),
    codeClean prev = true → codeCleanL l = true →
      codeClean (trailingGo prev l).1 = true ∧ codeCleanL (trailingGo prev l).2 = true := by
  intro prev l
  refine trailingGo.induct (fun n => codeClean n = true → codeClean (processTrailingInParent n) = true)
    (fun prev l => codeClean prev = true → codeCleanL l = true →
      codeClean (trailingGo prev l).1 = true ∧ codeCleanL (trailingGo prev l).2 = true)
    ?_ ?_ ?_ ?_ ?_ ?_ ?_ prev l
  · intro t pos d v a lg sp _ h
    rw [processTrailingInParent_none]
    exact h
  · intro t pos d v a lg sp _ h
    rw [processTrailingInParent_nil]
    exact h
  · intro t pos d v a lg sp c0 rest _ ih h
    rw [processTrailingInParent_cons]
    rw [codeClean_mk] at h ⊢
    by_cases hcode : (t == "code") = true
    · rw [if_pos hcode] at h ⊢
      exact h
    · rw [if_neg hcode] at h ⊢
      have h2 : codeCleanL (c0 :: rest) = true := h
      rw [codeCleanL_cons, Bool.and_eq_true] at h2
      show codeCleanL ((trailingGo c0 rest).1 :: (trailingGo c0 rest).2) = true
      have hr := ih h2.1 h2.2
      rw [codeCleanL_cons, hr.1, hr.2]
      rfl
  · intro prev hp _
    rw [trailingGo_nil]
    exact ⟨hp, rfl⟩
  · intro prev c rest frag hcond hadj ih hp h
    rw [codeCleanL_cons, Bool.and_eq_true] at h
    rw [trailingGo_cons_merge prev c rest frag (dite_tb_to_ite prev c (some frag) hcond) hadj]
    exact ih (codeClean_merge prev _ hp) h.2
  · intro prev c rest frag hcond hadj c2 ih1 ih2 hp h
    rw [codeCleanL_cons, Bool.and_eq_true] at h
    rw [trailingGo_cons_far prev c rest frag (dite_tb_to_ite prev c (some frag) hcond)
      (by simpa using hadj)]
    have hr := ih2 (ih1 h.1) h.2
    refine ⟨hp, ?_⟩
    rw [codeCleanL_cons, hr.1, hr.2]
    rfl
  · intro prev c rest hcond c2 ih1 ih2 hp h
    rw [codeCleanL_cons, Bool.and_eq_true] at h
    rw [trailingGo_cons_none prev c rest (dite_tb_to_ite prev c none hcond)]
    have hr := ih2 (ih1 h.1) h.2
    refine ⟨hp, ?_⟩
    rw [codeCleanL_cons, hr.1, hr.2]
    rfl

theorem codeClean_processTrailing (n : Node) (h : codeClean n = true) :
    codeClean (processTrailingInParent n) = true := by
  cases n with
  | mk t cs pos d v a lg sp =>
    cases cs with
    | none => rw [processTrailingInParent_none]; exact h
    | some l =>
      cases l with
      | nil => rw [processTrailingInParent_nil]; exact h
      | cons c0 rest =>
        rw [processTrailingInParent_cons]
        rw [codeClean_mk] at h ⊢
        by_cases hcode : (t == "code") = true
        · rw [if_pos hcode] at h ⊢
          exact h
        · rw [if_neg hcode] at h ⊢
          have h2 : codeCleanL (c0 :: rest) = true := h
          rw [codeCleanL_cons, Bool.and_eq_true] at h2
          show codeCleanL ((trailingGo c0 rest).1 :: (trailingGo c0 rest).2) = true
          have hr := codeClean_trailingGo c0 rest h2.1 h2.2
          rw [codeCleanL_cons, hr.1, hr.2]
          rfl

theorem tbChildClean_pT (c : Node) (hc : tbChildClean c = true)
    (hclean : tbClean (processTrailingInParent c) = true) :
    tbChildClean (processTrailingInParent c) = true := by
  cases c with
  | mk t cs pos d v a lg sp =>
    cases cs with
    | none =>
      rw [processTrailingInParent_none] at hclean ⊢
      exact hc
    | some l =>
      cases l with
      | nil =>
        rw [processTrailingInParent_nil] at hclean ⊢
        exact hc
      | cons c0 rest =>
        rw [processTrailingInParent_cons] at hclean ⊢
        rw [tbChildClean, Bool.and_eq_true]
        refine ⟨?_, hclean⟩
        rw [tbChildClean, Bool.and_eq_true, Node.typ_mk, Node.children_mk, Option.getD_some] at hc
        rw [Node.typ_mk, Node.children_mk, Option.getD_some]
        by_cases htb : (t == "thematicBreak") = true
        · have h1 := hc.1
          rw [htb, List.isEmpty_cons] at h1
          simp at h1
        · simp [htb]

theorem tbClean_trailingGo : ∀ (prev : Node) (l : List Node),
    tbChildClean prev = true → tbCleanL l = true →
      tbChildClean (trailingGo prev l).1 = true ∧ tbCleanL (trailingGo prev l).2 = true := by
  intro prev l
  refine trailingGo.induct (fun n => tbClean n = true → tbClean (processTrailingInParent n) = true)
    (fun prev l => tbChildClean prev = true → tbCleanL l = true →
      tbChildClean (trailingGo prev l).1 = true ∧ tbCleanL (trailingGo prev l).2 = true)
    ?_ ?_ ?_ ?_ ?_ ?_ ?_ prev l
  · intro t pos d v a lg sp _ h
    rw [processTrailingInParent_none]
    exact h
  · intro t pos d v a lg sp _ h
    rw [processTrailingInParent_nil]
    exact h
  · intro t pos d v a lg sp c0 rest _ ih h
    rw [processTrailingInParent_cons]
    rw [tbClean_mk] at h ⊢
    have h2 : tbCleanL (c0 :: rest) = true := h
    rw [tbCleanL_cons, Bool.and_eq_true] at h2
    show tbCleanL ((trailingGo c0 rest).1 :: (trailingGo c0 rest).2) = true
    have hr := ih h2.1 h2.2
    rw [tbCleanL_cons, hr.1, hr.2]
    rfl
  · intro prev hp _
    rw [trailingGo_nil]
    exact ⟨hp, rfl⟩
  · intro prev c rest frag hcond hadj ih hp h
    rw [tbCleanL_cons, Bool.and_eq_true] at h
    rw [trailingGo_cons_merge prev c rest frag (dite_tb_to_ite prev c (some frag) hcond) hadj]
    apply ih _ h.2
    rw [tbChildClean_merge]
    exact hp
  · intro prev c rest frag hcond hadj c2 ih1 ih2 hp h
    rw [tbCleanL_cons, Bool.and_eq_true] at h
    rw [trailingGo_cons_far prev c rest frag (dite_tb_to_ite prev c (some frag) hcond)
      (by simpa using hadj)]
    have htc : tbClean c = true := by
      have := h.1
      rw [tbChildClean, Bool.and_eq_true] at this
      exact this.2
    have hr := ih2 (tbChildClean_pT c h.1 (ih1 htc)) h.2
    refine ⟨hp, ?_⟩
    rw [tbCleanL_cons, hr.1, hr.2]
    rfl
  · intro prev c rest hcond c2 ih1 ih2 hp h
    rw [tbCleanL_cons, Bool.and_eq_true] at h
    rw [trailingGo_cons_none prev c rest (dite_tb_to_ite prev c none hcond)]
    have htc : tbClean c = true := by
      have := h.1
      rw [tbChildClean, Bool.and_eq_true] at this
      exact this.2
    have hr := ih2 (tbChildClean_pT c h.1 (ih1 htc)) h.2
    refine ⟨hp, ?_⟩
    rw [tbCleanL_cons, hr.1, hr.2]
    rfl

theorem tbClean_processTrailing (n : Node) (h : tbClean n = true) :
    tbClean (processTrailingInParent n) = true := by
  cases n with
  | mk t cs pos d v a lg sp =>
    cases cs with
    | none => rw [processTrailingInParent_none]; exact h
    | some l =>
      cases l with
      | nil => rw [processTrailingInParent_nil]; exact h
      | cons c0 rest =>
        rw [processTrailingInParent_cons]
        rw [tbClean_mk] at h ⊢
        have h2 : tbCleanL (c0 :: rest) = true := h
        rw [tbCleanL_cons, Bool.and_eq_true] at h2
        show tbCleanL ((trailingGo c0 rest).1 :: (trailingGo c0 rest).2) = true
        have hr := tbClean_trailingGo c0 rest h2.1 h2.2
        rw [tbCleanL_cons, hr.1, hr.2]
        rfl

theorem fragCountList_append (a b : List Node) :
    fragCountList (a ++ b) = fragCountList a + fragCountList b := by
  induction a with
  | nil => rw [List.nil_append, fragCountList_nil]; omega
  | cons x rest ih => rw [List.cons_append, fragCountList_cons, fragCountList_cons, ih]; omega

theorem fragCountList_reverse (l : List Node) : fragCountList l.reverse = fragCountList l := by
  induction l with
  | nil => rfl
  | cons x rest ih =>
    rw [List.reverse_cons, fragCountList_append, fragCountList_cons, fragCountList_cons,
      fragCountList_nil, ih]
    omega

theorem goResolve_id : ∀ (pt : String) (plang : Option String) (pd : Option NodeData)
    (revPre suffix : List Node), fragCountList revPre = 0 →
      goResolve pt plang pd revPre suffix = (pd, revPre.reverse ++ suffix) := by
  intro pt plang pd revPre suffix
  refine goResolve.induct (fun n => fragCount n = 0 → processNode n = n)
    (fun pt plang pd revPre suffix => fragCountList revPre = 0 →
      goResolve pt plang pd revPre suffix = (pd, revPre.reverse ++ suffix))
    ?_ ?_ ?_ ?_ ?_ ?_ ?_ ?_ ?_ pt plang pd revPre suffix
  · intro t pos d v a lg sp _ _
    rw [processNode.eq_1]
  · intro t pos d v a lg sp l _ ih h
    rw [fragCount_mk_some] at h
    rw [processNode.eq_2]
    have h2 : fragCountList l.reverse = 0 := by rw [fragCountList_reverse]; omega
    show Node.mk t (some (goResolve t lg d l.reverse []).2) pos (goResolve t lg d l.reverse []).1
        v a lg sp = Node.mk t (some l) pos d v a lg sp
    rw [ih h2]
    simp
  · intro pt plang pd suffix _
    rw [goResolve_nil, List.reverse_nil, List.nil_append]
  · intro pt plang pd suffix c hc p revRest2 hA ih h
    rw [fragCountList_cons] at h
    rw [fragCount_typ_ne c (by omega)] at hc
    cases hc
  · intro pt plang pd suffix c hc p revRest2 hA hB ih h
    rw [fragCountList_cons] at h
    rw [fragCount_typ_ne c (by omega)] at hc
    cases hc
  · intro pt plang pd suffix c hc p revRest2 hA hB ih h
    rw [fragCountList_cons] at h
    rw [fragCount_typ_ne c (by omega)] at hc
    cases hc
  · intro pt plang pd suffix c hc hB ih h
    rw [fragCountList_cons] at h
    rw [fragCount_typ_ne c (by omega)] at hc
    cases hc
  · intro pt plang pd suffix c hc hB ih h
    rw [fragCountList_cons] at h
    rw [fragCount_typ_ne c (by omega)] at hc
    cases hc
  · intro pt plang pd suffix c t hc ih1 ih2 h
    rw [fragCountList_cons] at h
    rw [goResolve_nonfrag pt plang pd suffix c t (by simpa using hc)]
    rw [ih2 (by omega), ih1 (by omega), List.reverse_cons, List.append_assoc,
      List.singleton_append]

theorem processNode_id (n : Node) (h : fragCountList (n.children.getD []) = 0) :
    processNode n = n := by
  cases n with
  | mk t cs pos d v a lg sp =>
    cases cs with
    | none => rw [processNode.eq_1]
    | some l =>
      rw [Node.children_mk, Option.getD_some] at h
      rw [processNode.eq_2]
      show Node.mk t (some (goResolve t lg d l.reverse []).2) pos (goResolve t lg d l.reverse []).1
          v a lg sp = Node.mk t (some l) pos d v a lg sp
      rw [goResolve_id t lg d l.reverse [] (by rw [fragCountList_reverse]; omega)]
      simp

theorem codeCleanL_append (a b : List Node) :
    codeCleanL (a ++ b) = (codeCleanL a && codeCleanL b) := by
  induction a with
  | nil => rw [List.nil_append, codeCleanL_nil, Bool.true_and]
  | cons x rest ih =>
    rw [List.cons_append, codeCleanL_cons, codeCleanL_cons, ih, Bool.and_assoc]

theorem codeCleanL_reverse (l : List Node) : codeCleanL l.reverse = codeCleanL l := by
  induction l with
  | nil => rfl
  | cons x rest ih =>
    rw [List.reverse_cons, codeCleanL_append, codeCleanL_cons, codeCleanL_cons, codeCleanL_nil,
      ih, Bool.and_comm, Bool.and_true]

theorem tbCleanL_append (a b : List Node) :
    tbCleanL (a ++ b) = (tbCleanL a && tbCleanL b) := by
  induction a with
  | nil => rw [List.nil_append, tbCleanL_nil, Bool.true_and]
  | cons x rest ih =>
    rw [List.cons_append, tbCleanL_cons, tbCleanL_cons, ih, Bool.and_assoc]

theorem tbCleanL_reverse (l : List Node) : tbCleanL l.reverse = tbCleanL l := by
  induction l with
  | nil => rfl
  | cons x rest ih =>
    rw [List.reverse_cons, tbCleanL_append, tbCleanL_cons, tbCleanL_cons, tbCleanL_nil,
      ih, Bool.and_comm, Bool.and_true]

theorem codeClean_orphan (c : Node) : codeClean (orphanTextNode c) = true := by
  rw [orphanTextNode, codeClean_mk]
  simp

theorem tbChildClean_orphan (c : Node) : tbChildClean (orphanTextNode c) = true := by
  apply tbChildClean_none
  rw [orphanTextNode, Node.children_mk]

theorem codeClean_goResolve : ∀ (pt : String) (plang : Option String) (pd : Option NodeData)
    (revPre suffix : List Node),
    (dClean pd = true → dClean (goResolve pt plang pd revPre suffix).1 = true) ∧
    (codeCleanL revPre = true → codeCleanL suffix = true →
      codeCleanL (goResolve pt plang pd revPre suffix).2 = true) := by
  intro pt plang pd revPre suffix
  refine goResolve.induct (fun n => codeClean n = true → codeClean (processNode n) = true)
    (fun pt plang pd revPre suffix =>
      (dClean pd = true → dClean (goResolve pt plang pd revPre suffix).1 = true) ∧
      (codeCleanL revPre = true → codeCleanL suffix = true →
        codeCleanL (goResolve pt plang pd revPre suffix).2 = true))
    ?_ ?_ ?_ ?_ ?_ ?_ ?_ ?_ ?_ pt plang pd revPre suffix
  · intro t pos d v a lg sp _ h
    rw [processNode.eq_1]
    exact h
  · intro t pos d v a lg sp l _ ih h
    rw [processNode.eq_2]
    show codeClean (Node.mk t (some (goResolve t lg d l.reverse []).2) pos
      (goResolve t lg d l.reverse []).1 v a lg sp) = true
    rw [codeClean_mk] at h ⊢
    by_cases hcode : (t == "code") = true
    · rw [if_pos hcode] at h ⊢
      exact ih.1 h
    · rw [if_neg hcode] at h ⊢
      have h2 : codeCleanL l = true := h
      show codeCleanL (goResolve t lg d l.reverse []).2 = true
      exact ih.2 (by rw [codeCleanL_reverse]; exact h2) codeCleanL_nil
  · intro pt plang pd suffix
    rw [goResolve_nil]
    exact ⟨fun h => h, fun _ h => h⟩
  · intro pt plang pd suffix c hc p revRest2 hA ih
    rw [goResolve_ruleA pt plang pd suffix c p revRest2 hc hA]
    refine ⟨ih.1, fun h hs => ?_⟩
    rw [codeCleanL_cons, Bool.and_eq_true] at h
    have h2 := h.2
    rw [codeCleanL_cons, Bool.and_eq_true] at h2
    apply ih.2 _ hs
    rw [codeCleanL_cons, codeClean_merge p _ h2.1, h2.2]
    rfl
  · intro pt plang pd suffix c hc p revRest2 hA hB ih
    rw [goResolve_ruleB_cons pt plang pd suffix c p revRest2 hc (by simpa using hA) hB]
    refine ⟨fun h => ih.1 (dClean_mergeAttrsData pd pt plang _ h), fun h hs => ?_⟩
    rw [codeCleanL_cons, Bool.and_eq_true] at h
    exact ih.2 h.2 hs
  · intro pt plang pd suffix c hc p revRest2 hA hB ih
    rw [goResolve_ruleC_cons pt plang pd suffix c p revRest2 hc (by simpa using hA)
      (by simpa using hB)]
    refine ⟨ih.1, fun h hs => ?_⟩
    rw [codeCleanL_cons, Bool.and_eq_true] at h
    apply ih.2 h.2
    rw [codeCleanL_cons, codeClean_orphan, hs]
    rfl
  · intro pt plang pd suffix c hc hB ih
    rw [goResolve_ruleB_nil pt plang pd suffix c hc hB]
    exact ⟨fun h => ih.1 (dClean_mergeAttrsData pd pt plang _ h), fun _ hs => ih.2 codeCleanL_nil hs⟩
  · intro pt plang pd suffix c hc hB ih
    rw [goResolve_ruleC_nil pt plang pd suffix c hc (by simpa using hB)]
    refine ⟨ih.1, fun h hs => ?_⟩
    apply ih.2 codeCleanL_nil
    rw [codeCleanL_cons, codeClean_orphan, hs]
    rfl
  · intro pt plang pd suffix c t hc ih1 ih2
    rw [goResolve_nonfrag pt plang pd suffix c t (by simpa using hc)]
    refine ⟨ih2.1, fun h hs => ?_⟩
    rw [codeCleanL_cons, Bool.and_eq_true] at h
    apply ih2.2 h.2
    rw [codeCleanL_cons, ih1 h.1, hs]
    rfl

theorem codeClean_processNode (n : Node) (h : codeClean n = true) :
    codeClean (processNode n) = true := by
  cases n with
  | mk t cs pos d v a lg sp =>
    cases cs with
    | none => rw [processNode.eq_1]; exact h
    | some l =>
      rw [processNode.eq_2]
      show codeClean (Node.mk t (some (goResolve t lg d l.reverse []).2) pos
        (goResolve t lg d l.reverse []).1 v a lg sp) = true
      rw [codeClean_mk] at h ⊢
      by_cases hcode : (t == "code") = true
      · rw [if_pos hcode] at h ⊢
        exact (codeClean_goResolve t lg d l.reverse []).1 h
      · rw [if_neg hcode] at h ⊢
        have h2 : codeCleanL l = true := h
        show codeCleanL (goResolve t lg d l.reverse []).2 = true
        exact (codeClean_goResolve t lg d l.reverse []).2
          (by rw [codeCleanL_reverse]; exact h2) codeCleanL_nil

theorem tbChildClean_processNode (c : Node) (hc : tbChildClean c = true)
    (hclean : tbClean (processNode c) = true) :
    tbChildClean (processNode c) = true := by
  cases c with
  | mk t cs pos d v a lg sp =>
    cases cs with
    | none =>
      rw [processNode.eq_1] at hclean ⊢
      exact hc
    | some l =>
      rw [processNode.eq_2] at hclean ⊢
      rw [tbChildClean, Bool.and_eq_true]
      refine ⟨?_, hclean⟩
      rw [tbChildClean, Bool.and_eq_true, Node.typ_mk, Node.children_mk, Option.getD_some] at hc
      rw [Node.typ_mk, Node.children_mk, Option.getD_some]
      by_cases htb : (t == "thematicBreak") = true
      · have hemp : l.isEmpty = true := by
          have h1 := hc.1
          rw [htb] at h1
          cases he : l.isEmpty
          · rw [he] at h1
            simp at h1
          · rfl
        have : l = [] := List.isEmpty_iff.mp hemp
        subst this
        rw [List.reverse_nil, goResolve_nil]
        simp
      · simp [htb]

theorem tbClean_goResolve : ∀ (pt : String) (plang : Option String) (pd : Option NodeData)
    (revPre suffix : List Node),
    tbCleanL revPre = true → tbCleanL suffix = true →
      tbCleanL (goResolve pt plang pd revPre suffix).2 = true := by
  intro pt plang pd revPre suffix
  refine goResolve.induct (fun n => tbClean n = true → tbClean (processNode n) = true)
    (fun pt plang pd revPre suffix =>
      tbCleanL revPre = true → tbCleanL suffix = true →
        tbCleanL (goResolve pt plang pd revPre suffix).2 = true)
    ?_ ?_ ?_ ?_ ?_ ?_ ?_ ?_ ?_ pt plang pd revPre suffix
  · intro t pos d v a lg sp _ h
    rw [processNode.eq_1]
    exact h
  · intro t pos d v a lg sp l _ ih h
    rw [processNode.eq_2]
    show tbClean (Node.mk t (some (goResolve t lg d l.reverse []).2) pos
      (goResolve t lg d l.reverse []).1 v a lg sp) = true
    rw [tbClean_mk] at h ⊢
    have h2 : tbCleanL l = true := h
    show tbCleanL (goResolve t lg d l.reverse []).2 = true
    exact ih (by rw [tbCleanL_reverse]; exact h2) tbCleanL_nil
  · intro pt plang pd suffix _ h
    rw [goResolve_nil]
    exact h
  · intro pt plang pd suffix c hc p revRest2 hA ih h hs
    rw [goResolve_ruleA pt plang pd suffix c p revRest2 hc hA]
    rw [tbCleanL_cons, Bool.and_eq_true] at h
    have h2 := h.2
    rw [tbCleanL_cons, Bool.and_eq_true] at h2
    apply ih _ hs
    rw [tbCleanL_cons, tbChildClean_merge, h2.1, h2.2]
    rfl
  · intro pt plang pd suffix c hc p revRest2 hA hB ih h hs
    rw [goResolve_ruleB_cons pt plang pd suffix c p revRest2 hc (by simpa using hA) hB]
    rw [tbCleanL_cons, Bool.and_eq_true] at h
    exact ih h.2 hs
  · intro pt plang pd suffix c hc p revRest2 hA hB ih h hs
    rw [goResolve_ruleC_cons pt plang pd suffix c p revRest2 hc (by simpa using hA)
      (by simpa using hB)]
    rw [tbCleanL_cons, Bool.and_eq_true] at h
    apply ih h.2
    rw [tbCleanL_cons, tbChildClean_orphan, hs]
    rfl
  · intro pt plang pd suffix c hc hB ih _ hs
    rw [goResolve_ruleB_nil pt plang pd suffix c hc hB]
    exact ih tbCleanL_nil hs
  · intro pt plang pd suffix c hc hB ih _ hs
    rw [goResolve_ruleC_nil pt plang pd suffix c hc (by simpa using hB)]
    apply ih tbCleanL_nil
    rw [tbCleanL_cons, tbChildClean_orphan, hs]
    rfl
  · intro pt plang pd suffix c t hc ih1 ih2 h hs
    rw [goResolve_nonfrag pt plang pd suffix c t (by simpa using hc)]
    rw [tbCleanL_cons, Bool.and_eq_true] at h
    have htc : tbClean c = true := by
      have := h.1
      rw [tbChildClean, Bool.and_eq_true] at this
      exact this.2
    apply ih2 h.2
    rw [tbCleanL_cons, tbChildClean_processNode c h.1 (ih1 htc), hs]
    rfl

theorem tbClean_processNode (n : Node) (h : tbClean n = true) :
    tbClean (processNode n) = true := by
  cases n with
  | mk t cs pos d v a lg sp =>
    cases cs with
    | none => rw [processNode.eq_1]; exact h
    | some l =>
      rw [processNode.eq_2]
      show tbClean (Node.mk t (some (goResolve t lg d l.reverse []).2) pos
        (goResolve t lg d l.reverse []).1 v a lg sp) = true
      rw [tbClean_mk] at h ⊢
      have h2 : tbCleanL l = true := h
      show tbCleanL (goResolve t lg d l.reverse []).2 = true
      exact tbClean_goResolve t lg d l.reverse []
        (by rw [tbCleanL_reverse]; exact h2) tbCleanL_nil

theorem promoCleanL_nil : promoCleanL [] = true := by
  rw [promoCleanL.eq_def]

theorem promoCleanL_cons (c : Node) (rest : List Node) :
    promoCleanL (c :: rest) = (promoClean c && promoCleanL rest) := by
  rw [promoCleanL.eq_def]

theorem codeCleanL_mem (l : List Node) (h : codeCleanL l = true) (c : Node) (hc : c ∈ l) :
    codeClean c = true := by
  induction l with
  | nil => cases hc
  | cons x rest ih =>
    rw [codeCleanL_cons, Bool.and_eq_true] at h
    rcases List.mem_cons.mp hc with rfl | hc2
    · exact h.1
    · exact ih h.2 hc2

theorem codeCleanL_all (l : List Node) (f : Node → Node)
    (h : ∀ c ∈ l, codeClean (f c) = true) : codeCleanL (l.map f) = true := by
  induction l with
  | nil => rw [List.map_nil, codeCleanL_nil]
  | cons x rest ih =>
    rw [List.map_cons, codeCleanL_cons, h x (by simp), ih (fun c hc => h c (by simp [hc]))]
    rfl

theorem tbCleanL_mem (l : List Node) (h : tbCleanL l = true) (c : Node) (hc : c ∈ l) :
    tbChildClean c = true := by
  induction l with
  | nil => cases hc
  | cons x rest ih =>
    rw [tbCleanL_cons, Bool.and_eq_true] at h
    rcases List.mem_cons.mp hc with rfl | hc2
    · exact h.1
    · exact ih h.2 hc2

theorem tbCleanL_all (l : List Node) (f : Node → Node)
    (h : ∀ c ∈ l, tbChildClean (f c) = true) : tbCleanL (l.map f) = true := by
  induction l with
  | nil => rw [List.map_nil, tbCleanL_nil]
  | cons x rest ih =>
    rw [List.map_cons, tbCleanL_cons, h x (by simp), ih (fun c hc => h c (by simp [hc]))]
    rfl

theorem promoCleanL_mem (l : List Node) (h : promoCleanL l = true) (c : Node) (hc : c ∈ l) :
    promoClean c = true := by
  induction l with
  | nil => cases hc
  | cons x rest ih =>
    rw [promoCleanL_cons, Bool.and_eq_true] at h
    rcases List.mem_cons.mp hc with rfl | hc2
    · exact h.1
    · exact ih h.2 hc2

theorem promoCleanL_all (l : List Node) (f : Node → Node)
    (h : ∀ c ∈ l, promoClean (f c) = true) : promoCleanL (l.map f) = true := by
  induction l with
  | nil => rw [List.map_nil, promoCleanL_nil]
  | cons x rest ih =>
    rw [List.map_cons, promoCleanL_cons, h x (by simp), ih (fun c hc => h c (by simp [hc]))]
    rfl

theorem promoteClearBag_typ (g : Node) : (promoteClearBag g).typ = g.typ := by
  unfold promoteClearBag
  cases g.dat with
  | none => rfl
  | some dd =>
    cases g
    rfl

theorem promoteClearBag_children (g : Node) : (promoteClearBag g).children = g.children := by
  unfold promoteClearBag
  cases g.dat with
  | none => rfl
  | some dd =>
    cases g
    rfl

theorem codeClean_promoteClearBag (g : Node) (h : codeClean g = true) :
    codeClean (promoteClearBag g) = true := by
  unfold promoteClearBag
  cases hd : g.dat with
  | none => exact h
  | some dd =>
    cases g with
    | mk t cs pos d v a lg sp =>
      rw [Node.dat_mk] at hd
      subst hd
      show codeClean ((Node.mk t cs pos (some dd) v a lg sp).setDat
        (some ⟨none, dd.mdastAttributes⟩)) = true
      rw [Node.setDat_mk]
      rw [codeClean_mk] at h ⊢
      by_cases hcode : (t == "code") = true
      · rw [if_pos hcode] at h ⊢
        cases dd with
        | mk hp ma =>
          cases ma with
          | none => rfl
          | some x => exact h
      · rw [if_neg hcode] at h ⊢
        exact h

theorem tbChildClean_promoteClearBag (g : Node) (h : tbChildClean g = true) :
    tbChildClean (promoteClearBag g) = true := by
  unfold promoteClearBag
  cases hd : g.dat with
  | none => exact h
  | some dd =>
    cases g with
    | mk t cs pos d v a lg sp =>
      rw [Node.dat_mk] at hd
      subst hd
      show tbChildClean ((Node.mk t cs pos (some dd) v a lg sp).setDat
        (some ⟨none, dd.mdastAttributes⟩)) = true
      rw [Node.setDat_mk]
      rw [tbChildClean, Node.typ_mk, Node.children_mk] at h ⊢
      rw [tbClean_mk]
      rw [tbClean_mk] at h
      exact h

theorem setChildren_typ (x : Node) (c2 : Option (List Node)) :
    (x.setChildren c2).typ = x.typ := by
  cases x
  rfl

theorem promotableBag_promoteClearBag (g : Node) :
    promotableBag (promoteClearBag g) = none := by
  cases g with
  | mk t cs pos d v a lg sp =>
    unfold promoteClearBag
    rw [Node.dat_mk]
    cases d with
    | none =>
      unfold promotableBag
      split
      · rfl
      · rfl
    | some dd =>
      show promotableBag ((Node.mk t cs pos (some dd) v a lg sp).setDat
        (some ⟨none, dd.mdastAttributes⟩)) = none
      rw [Node.setDat_mk]
      unfold promotableBag
      split
      · rfl
      · rfl

theorem promotableBag_clearOrKeep (g : Node) :
    promotableBag (match promotableBag g with
      | some _ => promoteClearBag g
      | none => g) = none := by
  cases hb : promotableBag g with
  | none => exact hb
  | some b => exact promotableBag_promoteClearBag g

theorem promotableBag_promote (g : Node) :
    promotableBag (promoteTightListAttributes g) = promotableBag g := by
  unfold promotableBag
  rw [promote_typ, promote_dat]

theorem foldMerge_id (gs : List Node) (h : ∀ g ∈ gs, promotableBag g = none) : ∀ x : Node,
    gs.foldl
      (fun n g =>
        match promotableBag g with
        | some hp => mergeAttributesToNode n hp
        | none => n) x = x := by
  induction gs with
  | nil => intro x; rfl
  | cons g rest ih =>
    intro x
    rw [List.foldl_cons]
    have hg := h g (by simp)
    rw [hg]
    exact ih (fun g2 hg2 => h g2 (by simp [hg2])) x

theorem promoteItemStep_id (c : Node) (h : itemClean c = true) : promoteItemStep c = c := by
  by_cases ht : (c.typ == "listItem") = true
  · cases hcs : c.children with
    | none =>
      unfold promoteItemStep
      rw [if_pos ht, hcs]
    | some gs =>
      rw [itemClean, if_pos ht, hcs] at h
      have hall : ∀ g ∈ gs, promotableBag g = none := by
        intro g hg
        exact Option.isNone_iff_eq_none.mp (by
          have := List.all_eq_true.mp h g hg
          simpa using this)
      rw [promoteItemStep_spec c gs (eq_of_beq ht) hcs]
      rw [foldMerge_id gs hall c]
      rw [map_eq_self_of_forall gs _ (fun g hg => by rw [hall g hg])]
      cases c with
      | mk t2 cs2 pos2 d2 v2 a2 lg2 sp2 =>
        rw [Node.children_mk] at hcs
        subst hcs
        rw [Node.setChildren_mk]
  · unfold promoteItemStep
    rw [if_neg ht]

theorem codeClean_setChildren_some (x : Node) (l : List Node) :
    codeClean (x.setChildren (some l)) =
      (if x.typ == "code" then dClean x.dat else codeCleanL l) := by
  cases x with
  | mk t cs pos d v a lg sp =>
    rw [Node.setChildren_mk, codeClean_mk, Node.typ_mk, Node.dat_mk]

theorem tbChildClean_setChildren_some (x : Node) (l : List Node) :
    tbChildClean (x.setChildren (some l)) =
      ((!(x.typ == "thematicBreak" && !l.isEmpty)) && tbCleanL l) := by
  cases x with
  | mk t cs pos d v a lg sp =>
    rw [Node.setChildren_mk, tbChildClean, Node.children_mk, Option.getD_some, tbClean_mk]
    rw [Node.typ_mk, Node.typ_mk]

theorem codeClean_promoteItemStep (c : Node) (h : codeClean c = true) :
    codeClean (promoteItemStep c) = true := by
  by_cases ht : (c.typ == "listItem") = true
  · cases hcs : c.children with
    | none =>
      unfold promoteItemStep
      rw [if_pos ht, hcs]
      exact h
    | some gs =>
      rw [promoteItemStep_spec c gs (eq_of_beq ht) hcs]
      rw [codeClean_setChildren_some, typ_foldMerge]
      rw [if_neg (by rw [eq_of_beq ht]; decide)]
      have hl : codeCleanL gs = true := by
        cases c with
        | mk t3 cs3 pos3 d3 v3 a3 lg3 sp3 =>
          rw [Node.children_mk] at hcs
          subst hcs
          rw [codeClean_mk] at h
          rw [if_neg (by
            rw [Node.typ_mk] at ht
            rw [eq_of_beq ht]
            decide)] at h
          exact h
      apply codeCleanL_all
      intro g hg
      have hgc := codeCleanL_mem gs hl g hg
      cases hb : promotableBag g with
      | none => exact hgc
      | some b => exact codeClean_promoteClearBag g hgc
  · unfold promoteItemStep
    rw [if_neg ht]
    exact h

theorem tbChildClean_promoteItemStep (c : Node) (h : tbChildClean c = true) :
    tbChildClean (promoteItemStep c) = true := by
  by_cases ht : (c.typ == "listItem") = true
  · cases hcs : c.children with
    | none =>
      unfold promoteItemStep
      rw [if_pos ht, hcs]
      exact h
    | some gs =>
      rw [promoteItemStep_spec c gs (eq_of_beq ht) hcs]
      rw [tbChildClean_setChildren_some, typ_foldMerge]
      have hl : tbCleanL gs = true := by
        cases c with
        | mk t3 cs3 pos3 d3 v3 a3 lg3 sp3 =>
          rw [Node.children_mk] at hcs
          subst hcs
          rw [tbChildClean, Bool.and_eq_true] at h
          have h2 := h.2
          rw [tbClean_mk] at h2
          exact h2
      rw [Bool.and_eq_true]
      constructor
      · rw [eq_of_beq ht]
        rfl
      · apply tbCleanL_all
        intro g hg
        have hgc := tbCleanL_mem gs hl g hg
        cases hb : promotableBag g with
        | none => exact hgc
        | some b => exact tbChildClean_promoteClearBag g hgc
  · unfold promoteItemStep
    rw [if_neg ht]
    exact h

theorem codeClean_promote : ∀ n : Node,
    codeClean n = true → codeClean (promoteTightListAttributes n) = true := by
  intro n
  induction n using promoteTightListAttributes.induct with
  | case1 t pos d v a lg sp _ =>
    intro h
    rw [promote_none]
    exact h
  | case2 t pos d v a lg sp l l1 heq ih =>
    intro h
    rw [promote_some]
    rw [codeClean_mk] at h ⊢
    by_cases hcode : (t == "code") = true
    · rw [if_pos hcode] at h ⊢
      exact h
    · rw [if_neg hcode] at h ⊢
      have h2 : codeCleanL l = true := h
      show codeCleanL ((if (t == "list" && !sp) = true then l.map promoteItemStep else l).map
        promoteTightListAttributes) = true
      apply codeCleanL_all
      intro c hc
      have hcc : codeClean c = true := by
        by_cases hb : (t == "list" && !sp) = true
        · rw [if_pos hb] at hc
          rcases List.mem_map.mp hc with ⟨x, hx, rfl⟩
          exact codeClean_promoteItemStep x (codeCleanL_mem l h2 x hx)
        · rw [if_neg hb] at hc
          exact codeCleanL_mem l h2 c hc
      have hmem : c ∈ (if hq : (t == "list" && !sp) = true then List.map promoteItemStep l else l) := by
        by_cases hb : (t == "list" && !sp) = true
        · rw [dif_pos hb]
          rw [if_pos hb] at hc
          exact hc
        · rw [dif_neg hb]
          rw [if_neg hb] at hc
          exact hc
      exact ih ⟨c, hmem⟩ hcc

theorem tbChildClean_promote (c : Node) (hc : tbChildClean c = true)
    (hclean : tbClean (promoteTightListAttributes c) = true) :
    tbChildClean (promoteTightListAttributes c) = true := by
  cases c with
  | mk t cs pos d v a lg sp =>
    cases cs with
    | none =>
      rw [promote_none] at hclean ⊢
      exact hc
    | some l =>
      rw [promote_some] at hclean ⊢
      rw [tbChildClean, Bool.and_eq_true]
      refine ⟨?_, hclean⟩
      rw [tbChildClean, Bool.and_eq_true, Node.typ_mk, Node.children_mk, Option.getD_some] at hc
      rw [Node.typ_mk, Node.children_mk, Option.getD_some]
      have hemp : ((if (t == "list" && !sp) = true then l.map promoteItemStep else l).map
          promoteTightListAttributes).isEmpty = l.isEmpty := by
        by_cases hb : (t == "list" && !sp) = true
        · rw [if_pos hb]
          cases l <;> rfl
        · rw [if_neg hb]
          cases l <;> rfl
      rw [hemp]
      exact hc.1

theorem tbClean_promote : ∀ n : Node,
    tbClean n = true → tbClean (promoteTightListAttributes n) = true := by
  intro n
  induction n using promoteTightListAttributes.induct with
  | case1 t pos d v a lg sp _ =>
    intro h
    rw [promote_none]
    exact h
  | case2 t pos d v a lg sp l l1 heq ih =>
    intro h
    rw [promote_some]
    rw [tbClean_mk] at h ⊢
    have h2 : tbCleanL l = true := h
    show tbCleanL ((if (t == "list" && !sp) = true then l.map promoteItemStep else l).map
      promoteTightListAttributes) = true
    apply tbCleanL_all
    intro c hc
    have hcc : tbChildClean c = true := by
      by_cases hb : (t == "list" && !sp) = true
      · rw [if_pos hb] at hc
        rcases List.mem_map.mp hc with ⟨x, hx, rfl⟩
        exact tbChildClean_promoteItemStep x (tbCleanL_mem l h2 x hx)
      · rw [if_neg hb] at hc
        exact tbCleanL_mem l h2 c hc
    have htcl : tbClean c = true := by
      rw [tbChildClean, Bool.and_eq_true] at hcc
      exact hcc.2
    have hmem : c ∈ (if hq : (t == "list" && !sp) = true then List.map promoteItemStep l else l) := by
      by_cases hb : (t == "list" && !sp) = true
      · rw [dif_pos hb]
        rw [if_pos hb] at hc
        exact hc
      · rw [dif_neg hb]
        rw [if_neg hb] at hc
        exact hc
    exact tbChildClean_promote c hcc (ih ⟨c, hmem⟩ htcl)

theorem itemClean_promote_itemStep (x : Node) :
    itemClean (promoteTightListAttributes (promoteItemStep x)) = true := by
  by_cases ht : (x.typ == "listItem") = true
  · cases hcs : x.children with
    | none =>
      have hstep : promoteItemStep x = x := by
        unfold promoteItemStep
        rw [if_pos ht, hcs]
      rw [hstep]
      cases x with
      | mk t cs pos d v a lg sp =>
        rw [Node.children_mk] at hcs
        subst hcs
        rw [promote_none, itemClean, Node.children_mk]
        rw [Node.typ_mk] at ht ⊢
        rw [if_pos ht]
    | some gs =>
      rw [promoteItemStep_spec x gs (eq_of_beq ht) hcs]
      have hgen : ∀ z : Node, z.typ = "listItem" →
          itemClean (promoteTightListAttributes (z.setChildren (some (gs.map (fun g =>
            match promotableBag g with
            | some _ => promoteClearBag g
            | none => g))))) = true := by
        intro z hz
        cases z with
        | mk t2 cs2 pos2 d2 v2 a2 lg2 sp2 =>
          rw [Node.typ_mk] at hz
          subst hz
          rw [Node.setChildren_mk, promote_some]
          rw [if_neg (by simp)]
          rw [itemClean, Node.typ_mk, if_pos (by decide), Node.children_mk]
          show (List.map promoteTightListAttributes (gs.map (fun g =>
            match promotableBag g with
            | some _ => promoteClearBag g
            | none => g))).all (fun g => (promotableBag g).isNone) = true
          rw [List.all_eq_true]
          intro e he
          rcases List.mem_map.mp he with ⟨e2, he2, rfl⟩
          rcases List.mem_map.mp he2 with ⟨g, hg, rfl⟩
          rw [promotableBag_promote, promotableBag_clearOrKeep]
          rfl
      exact hgen _ (by rw [typ_foldMerge, eq_of_beq ht])
  · have hstep : promoteItemStep x = x := by
      unfold promoteItemStep
      rw [if_neg ht]
    rw [hstep]
    rw [itemClean, promote_typ, if_neg ht]

theorem promoClean_promote : ∀ n : Node, promoClean (promoteTightListAttributes n) = true := by
  intro n
  induction n using promoteTightListAttributes.induct with
  | case1 t pos d v a lg sp _ =>
    rw [promote_none, promoClean_mk]
  | case2 t pos d v a lg sp l l1 heq ih =>
    rw [promote_some]
    have hlist : promoCleanL ((if (t == "list" && !sp) = true then l.map promoteItemStep
        else l).map promoteTightListAttributes) = true := by
      apply promoCleanL_all
      intro c hc
      have hmem : c ∈ (if hq : (t == "list" && !sp) = true then List.map promoteItemStep l
          else l) := by
        by_cases hb : (t == "list" && !sp) = true
        · rw [dif_pos hb]
          rw [if_pos hb] at hc
          exact hc
        · rw [dif_neg hb]
          rw [if_neg hb] at hc
          exact hc
      exact ih ⟨c, hmem⟩
    by_cases hb : (t == "list" && !sp) = true
    · rw [if_pos hb] at hlist ⊢
      rw [promoClean_mk]
      show ((if (t == "list" && !sp) = true then ((l.map promoteItemStep).map
          promoteTightListAttributes).all itemClean else true) &&
        promoCleanL ((l.map promoteItemStep).map promoteTightListAttributes)) = true
      rw [if_pos hb, hlist, Bool.and_true, List.all_eq_true]
      intro e he
      rcases List.mem_map.mp he with ⟨e2, he2, rfl⟩
      rcases List.mem_map.mp he2 with ⟨x, hx, rfl⟩
      exact itemClean_promote_itemStep x
    · rw [if_neg hb] at hlist ⊢
      rw [promoClean_mk]
      show ((if (t == "list" && !sp) = true then (l.map promoteTightListAttributes).all itemClean
        else true) && promoCleanL (l.map promoteTightListAttributes)) = true
      rw [if_neg hb, hlist, Bool.and_true]

theorem promote_id : ∀ n : Node, promoClean n = true → promoteTightListAttributes n = n := by
  intro n
  induction n using promoteTightListAttributes.induct with
  | case1 t pos d v a lg sp _ =>
    intro _
    rw [promote_none]
  | case2 t pos d v a lg sp l l1 heq ih =>
    intro h
    rw [promoClean_mk] at h
    have h2 : ((if (t == "list" && !sp) = true then l.all itemClean else true) &&
        promoCleanL l) = true := h
    rw [Bool.and_eq_true] at h2
    rw [promote_some]
    have hl1 : (if (t == "list" && !sp) = true then l.map promoteItemStep else l) = l := by
      by_cases hb : (t == "list" && !sp) = true
      · rw [if_pos hb]
        have hall := h2.1
        rw [if_pos hb, List.all_eq_true] at hall
        exact map_eq_self_of_forall l _ (fun c hc => promoteItemStep_id c (hall c hc))
      · rw [if_neg hb]
    rw [hl1]
    rw [map_eq_self_of_forall l _ (fun c hc => ?_)]
    have hmem : c ∈ (if hq : (t == "list" && !sp) = true then List.map promoteItemStep l
        else l) := by
      by_cases hb : (t == "list" && !sp) = true
      · rw [dif_pos hb]
        have : List.map promoteItemStep l = l := by
          have := hl1
          rw [if_pos hb] at this
          exact this
        rw [this]
        exact hc
      · rw [dif_neg hb]
        exact hc
    exact ih ⟨c, hmem⟩ (promoCleanL_mem l h2.2 c hc)

theorem processNode_typ (n : Node) : (processNode n).typ = n.typ := by
  cases n with
  | mk t cs pos d v a lg sp =>
    cases cs with
    | none => rw [processNode.eq_1]
    | some l =>
      rw [processNode.eq_2]
      show (Node.mk t (some (goResolve t lg d l.reverse []).2) pos
        (goResolve t lg d l.reverse []).1 v a lg sp).typ = (Node.mk t (some l) pos d v a lg sp).typ
      rw [Node.typ_mk, Node.typ_mk]

theorem transform_fragCount_eq (tree : Node) :
    fragCount (attributesTransform tree) =
      (if ((attributesTransform tree).typ == "mdastAttributes") = true then 1 else 0) := by
  unfold attributesTransform
  rw [promote_fragCount, resolver_fragCount, promote_typ, processNode_typ]

theorem kids_fragfree (n : Node)
    (h : fragCount n = (if (n.typ == "mdastAttributes") = true then 1 else 0)) :
    fragCountList (n.children.getD []) = 0 := by
  cases n with
  | mk t cs pos d v a lg sp =>
    rw [Node.children_mk]
    cases cs with
    | none => rw [Option.getD_none, fragCountList_nil]
    | some l =>
      rw [Option.getD_some]
      rw [fragCount_mk_some, Node.typ_mk] at h
      cases hb : (t == "mdastAttributes") <;> rw [hb] at h <;> omega

theorem transform_id_of_clean (X : Node) (h1 : codeClean X = true) (h2 : tbClean X = true)
    (h3 : fragCountList (X.children.getD []) = 0) (h4 : promoClean X = true) :
    attributesTransform X = X := by
  unfold attributesTransform
  rw [processCodeBlocks_id X h1, processThematicBreaks_id X h2, processStandalone_id X h3,
    processTrailing_id X h3, processNode_id X h3, promote_id X h4]

/-- C9: the full transform is idempotent: applying `attributesTransform` to
its own output returns the output unchanged.  The first run leaves no
fragments, no side-channel maps on reachable code nodes, no thematic break
with children reachable as a child, and no promotable tight-list paragraph
bags, so no pass of the second run modifies any node. -/
theorem claim9_transform_idempotent : ∀ tree : Node,
    attributesTransform (attributesTransform tree) = attributesTransform tree := by
  intro tree
  apply transform_id_of_clean
  · exact codeClean_promote _ (codeClean_processNode _ (codeClean_processTrailing _
      (codeClean_processStandalone _ (codeClean_processThematicBreaks _
        (codeClean_processCodeBlocks tree)))))
  · exact tbClean_promote _ (tbClean_processNode _ (tbClean_processTrailing _
      (tbClean_processStandalone _ (tbClean_processThematicBreaks (processCodeBlocks tree)))))
  · exact kids_fragfree _ (transform_fragCount_eq tree)
  · exact promoClean_promote _
